import Mathlib

/-!
# A verification model of the `stable-map` crate

This file embeds the core of the `stable-map` repository in Lean 4:

* `PosVec` (src/stable-map/src/pos_vec.rs) is a sparse vector of slots, each
  occupied slot storing a `Pos<Stored>` cell next to its value.  The external
  `Pos<InUse>` handle held by the hash index aliases the same heap cell, so a
  relocation performed through the stored view is observed by the external
  view.  We model the shared heap cells by an explicit indirection table
  `cells : List Nat` mapping a cell id to the cell's current index; a slot
  stores `(cell id, value)` and an external handle is the cell id.  A
  `Pos<Free>` owns its cell exclusively (nothing aliases it), so a free
  position is modelled by its plain index; `store` (which activates a free
  position into an aliased pair) allocates a fresh entry in the table.
* `LinearStorage` (src/stable-map/src/linear_storage.rs) adds the
  `MinMaxHeap<Pos<Free>>` free list.  `Pos<Free>` values are ordered by their
  index, and only `push`, `pop_min`, `len` and `clear` are used, so the heap
  is modelled by a `≤`-sorted list of indices whose head is the minimum.
* `StableMap` (src/stable-map/src/map.rs) adds the `HashMap<K, Pos<InUse>>`
  key index, modelled by an association list with unique keys mapping each
  key to its cell id.  The generation `Tag` only guards undefined behaviour
  (debug assertions) and is not part of any observable behaviour modelled
  here, so it is omitted; `clear` simply discards all state.

Unsafe Rust paths whose preconditions the surrounding code guarantees
(`get_unchecked`, `take_unchecked`, …) are modelled totally, returning
`Option` or leaving the state unchanged on the (unreachable) invalid inputs.
-/

set_option autoImplicit false
set_option linter.unusedSectionVars false

variable {K V : Type} [DecidableEq K] [DecidableEq V]

/-- The pop loop inside `PosVec::compact` (src/stable-map/src/pos_vec.rs,
`while let Some(value) = self.values.pop()`): repeatedly pop from the tail of
the vector, discarding empty slots, until an occupied slot is found (returned
together with the remaining vector) or the vector is exhausted. -/
def popLastSome {α : Type} : List (Option α) → Option (List (Option α) × α)
  | [] => none
  | x :: xs =>
    match popLastSome xs with
    | some (rest, e) => some (x :: rest, e)
    | none =>
      match x with
      | some e => some ([], e)
      | none => none

/-- The loop of `PosVec::compact` (src/stable-map/src/pos_vec.rs, lines
153-216).  `f` is the current free position popped from `smallest_free` and
`fs` the remaining queue.  Popping the tail of the vector discards empty
slots; an occupied tail slot whose destination `f` is inside the shrunk
vector is relocated there (`entry.pos.set(free)` becomes `cells.set cid f`);
otherwise it is pushed back and compaction stops. -/
def compactGo {V : Type} :
    List Nat → List (Option (Nat × V)) → Nat → List Nat →
    List Nat × List (Option (Nat × V))
  | cells, slots, f, fs =>
    match popLastSome slots with
    | none => (cells, [])
    | some (rest, (cid, v)) =>
      if f < rest.length then
        let cells' := cells.set cid f
        let rest' := rest.set f (some (cid, v))
        match fs with
        | [] => (cells', rest')
        | f2 :: fs2 => compactGo cells' rest' f2 fs2
      else (cells, rest ++ [some (cid, v)])

/-- `LinearStorage<V>` (src/stable-map/src/linear_storage.rs) flattened
together with its inner `PosVec<V>`: `cells` is the indirection table of
shared position cells, `slots` the slot vector (`Vec<Option<PositionedValue>>`)
and `free_list` the min-heap of free positions, kept `≤`-sorted. -/
structure LinearStorage (V : Type) where
  cells : List Nat
  slots : List (Option (Nat × V))
  free_list : List Nat
  deriving DecidableEq, Repr

namespace LinearStorage

/-- `LinearStorage::with_capacity` observable state (capacity untracked). -/
def emptyLS : LinearStorage V := ⟨[], [], []⟩

/-- `LinearStorage::len`, i.e. `PosVec::len`: the slot-array length. -/
def len (s : LinearStorage V) : Nat := s.slots.length

/-- `LinearStorage::insert` (lines 57-72): pop the smallest free position, or
create a fresh one at the end of the vector (`PosVec::create_pos`), then
`PosVec::store` the value there.  Returns the cell id of the new
`Pos<InUse>`. -/
def insert (s : LinearStorage V) (v : V) : LinearStorage V × Nat :=
  match s.free_list with
  | [] =>
    let idx := s.slots.length
    (⟨s.cells ++ [idx], s.slots ++ [some (s.cells.length, v)], []⟩, s.cells.length)
  | f :: rest =>
    (⟨s.cells ++ [f], s.slots.set f (some (s.cells.length, v)), rest⟩, s.cells.length)

/-- `LinearStorage::take_unchecked` (lines 247-260): `PosVec::take_unchecked`
removes the value and deactivates the pair into a free position at the cell's
current index, which is pushed onto the free list.  Passing an invalid handle
is undefined behaviour in the source; the model returns `none` and leaves the
state unchanged. -/
def take (s : LinearStorage V) (cid : Nat) : LinearStorage V × Option V :=
  match s.slots.getD (s.cells.getD cid 0) none with
  | some (_, v) =>
    (⟨s.cells, s.slots.set (s.cells.getD cid 0) none,
      s.free_list.orderedInsert (· ≤ ·) (s.cells.getD cid 0)⟩, some v)
  | none => (s, none)

/-- `LinearStorage::get` (lines 91-93), i.e. `PosVec::get`: bounds-checked
access by raw index, `None` for out-of-bounds or empty slots. -/
def get (s : LinearStorage V) (i : Nat) : Option V :=
  (s.slots.getD i none).map Prod.snd

/-- `LinearStorage::get_unchecked` (lines 189-199): access through a
`Pos<InUse>` handle, reading the aliased cell's current index.  Totalised to
`Option` for invalid handles (undefined behaviour in the source). -/
def getUnchecked (s : LinearStorage V) (cid : Nat) : Option V :=
  (s.slots.getD (s.cells.getD cid 0) none).map Prod.snd

/-- Replacing the value behind a `Pos<InUse>` handle, as done by
`StableMap::insert`'s occupied branch via `LinearStorage::get_unchecked_mut`
and `mem::replace` (src/stable-map/src/map.rs, lines 949-956).  The slot keeps
its stored cell. -/
def replaceValue (s : LinearStorage V) (cid : Nat) (v : V) : LinearStorage V :=
  match s.slots.getD (s.cells.getD cid 0) none with
  | some (c, _) => ⟨s.cells, s.slots.set (s.cells.getD cid 0) (some (c, v)), s.free_list⟩
  | none => s

/-- `LinearStorage::force_compact` (lines 133-143): run `PosVec::compact`
draining the free list in ascending order, then clear the free list. -/
def forceCompact (s : LinearStorage V) : LinearStorage V :=
  match s.free_list with
  | [] => ⟨s.cells, s.slots, []⟩
  | f :: fs =>
    let r := compactGo s.cells s.slots f fs
    ⟨r.1, r.2, []⟩

/-- `LinearStorage::compact` (lines 122-129): no-op unless the free list is
longer than `max(slot-array length / 2, 8)`. -/
def compact (s : LinearStorage V) : LinearStorage V :=
  if s.free_list.length ≤ max (s.slots.length / 2) 8 then s else s.forceCompact

/-- `LinearStorage::clear` (lines 78-84): `PosVec::clear` truncates the slot
vector (starting a new generation) and the free list is emptied. -/
def clearLS (_s : LinearStorage V) : LinearStorage V := ⟨[], [], []⟩

end LinearStorage

/-- `HashMap::get` on the key index: the first entry with the given key. -/
def lookup (l : List (K × Nat)) (k : K) : Option Nat :=
  (l.find? fun p => p.1 = k).map Prod.snd

/-- `HashMap::remove` on the key index: drop the entry with the given key. -/
def eraseKey (l : List (K × Nat)) (k : K) : List (K × Nat) :=
  l.eraseP fun p => p.1 = k

/-- `StableMap<K, V>` (src/stable-map/src/map.rs): the key index
`HashMap<K, Pos<InUse>>` modelled as an association list from key to cell id,
next to the `LinearStorage`. -/
structure StableMap (K V : Type) where
  key_to_pos : List (K × Nat)
  storage : LinearStorage V
  deriving DecidableEq, Repr

namespace StableMap

/-- `StableMap::new`. -/
def emptyMap : StableMap K V := ⟨[], LinearStorage.emptyLS⟩

/-- `StableMap::len` (map.rs, lines 1256-1259): the key-index length. -/
def mapLen (s : StableMap K V) : Nat := s.key_to_pos.length

/-- `StableMap::index_len` (map.rs, lines 1647-1650): the slot-array length. -/
def indexLen (s : StableMap K V) : Nat := s.storage.len

/-- `StableMap::get` (map.rs, lines 479-492): key-index lookup followed by
handle-based storage access. -/
def get (s : StableMap K V) (k : K) : Option V :=
  (lookup s.key_to_pos k).bind fun cid => s.storage.getUnchecked cid

/-- `StableMap::contains_key`. -/
def containsKey (s : StableMap K V) (k : K) : Prop :=
  (lookup s.key_to_pos k).isSome

instance (s : StableMap K V) (k : K) : Decidable (s.containsKey k) := by
  unfold containsKey; infer_instance

/-- `StableMap::get_index` (map.rs, lines 1674-1685): the current index read
through the key's `Pos<InUse>` handle. -/
def getIndex (s : StableMap K V) (k : K) : Option Nat :=
  (lookup s.key_to_pos k).map fun cid => s.storage.cells.getD cid 0

/-- `StableMap::get_by_index` (map.rs, lines 1704-1706): raw indexed access. -/
def getByIndex (s : StableMap K V) (i : Nat) : Option V :=
  s.storage.get i

/-- `StableMap::insert` (map.rs, lines 944-964): if the key is present,
replace the value behind its handle; otherwise store the value in the
storage and record the returned handle in the key index. -/
def insert (s : StableMap K V) (k : K) (v : V) : StableMap K V :=
  match lookup s.key_to_pos k with
  | some cid => ⟨s.key_to_pos, s.storage.replaceValue cid v⟩
  | none =>
    let r := s.storage.insert v
    ⟨s.key_to_pos ++ [(k, r.2)], r.1⟩

/-- `StableMap::remove` (map.rs, lines 1289-1302): remove the key's handle
from the key index and take the value out of the storage. -/
def remove (s : StableMap K V) (k : K) : StableMap K V :=
  match lookup s.key_to_pos k with
  | some cid => ⟨eraseKey s.key_to_pos k, (s.storage.take cid).1⟩
  | none => s

/-- `StableMap::compact` (map.rs, line 1822): forwards to the storage. -/
def mapCompact (s : StableMap K V) : StableMap K V :=
  ⟨s.key_to_pos, s.storage.compact⟩

/-- `StableMap::force_compact` (map.rs, line 1844): forwards to the storage. -/
def mapForceCompact (s : StableMap K V) : StableMap K V :=
  ⟨s.key_to_pos, s.storage.forceCompact⟩

/-- `StableMap::clear` (map.rs, lines 193-196): clear the key index, then the
storage. -/
def clear (_s : StableMap K V) : StableMap K V :=
  ⟨[], LinearStorage.clearLS LinearStorage.emptyLS⟩

/-- `StableMap::insert_unique_unchecked` (map.rs, lines 1024-1041): store the
value and append the handle without probing the key index. -/
def insertUniqueUnchecked (s : StableMap K V) (k : K) (v : V) : StableMap K V :=
  let r := s.storage.insert v
  ⟨s.key_to_pos ++ [(k, r.2)], r.1⟩

/-- One step of `<StableMap as Clone>::clone`: resolve the handle and
`insert_unique_unchecked` the pair into the map under construction. -/
def cloneStep (src m : StableMap K V) (p : K × Nat) : StableMap K V :=
  match src.storage.getUnchecked p.2 with
  | some v => m.insertUniqueUnchecked p.1 v
  | none => m

/-- `<StableMap as Clone>::clone` (src/stable-map/src/clone.rs, lines 15-25):
iterate the live pairs and `insert_unique_unchecked` each into a fresh map. -/
def cloneMap (s : StableMap K V) : StableMap K V :=
  s.key_to_pos.foldl (cloneStep s) emptyMap

/-- The first `n` calls of `<Drain as Iterator>::next`
(src/stable-map/src/drain.rs): each drains one key-index entry and takes its
value out of the storage. -/
def drainConsume (s : StableMap K V) (n : Nat) : StableMap K V :=
  (s.key_to_pos.take n).foldl (fun m p => ⟨eraseKey m.key_to_pos p.1, (m.storage.take p.2).1⟩) s

/-- Dropping a `Drain` after `n` items were consumed
(src/stable-map/src/drain.rs, lines 49-55): the `hash_map::Drain` drop clears
the key index and `LinearStorage::clear` resets the storage. -/
def drainDrop (s : StableMap K V) (n : Nat) : StableMap K V :=
  let s' := drainConsume s n
  ⟨[], s'.storage.clearLS⟩

end StableMap

/-- A public mutating operation of the map, for stating properties over
operation sequences. -/
inductive Op (K V : Type) where
  | ins (k : K) (v : V)
  | rem (k : K)
  | comp
  | fcomp
  | clr
  | clone
  | drain (n : Nat)

/-- Run one public operation. -/
def applyOp (s : StableMap K V) : Op K V → StableMap K V
  | .ins k v => s.insert k v
  | .rem k => s.remove k
  | .comp => s.mapCompact
  | .fcomp => s.mapForceCompact
  | .clr => s.clear
  | .clone => s.cloneMap
  | .drain n => s.drainDrop n

/-- Run a sequence of public operations. -/
def applyOps (s : StableMap K V) (ops : List (Op K V)) : StableMap K V :=
  ops.foldl applyOp s

/-- The representation invariant of `StableMap`, combining the documented
invariants of `PosVec`, `LinearStorage` and `StableMap`:
keys and handles in the key index are distinct; every handle in the key index
is a valid external view of an occupied slot; every occupied slot's stored
cell points back at the slot's index and is owned by some key; the free list
is an ordered duplicate-free enumeration of exactly the empty slots; and the
key count equals the occupied-slot count. -/
def MapInv (s : StableMap K V) : Prop :=
  (s.key_to_pos.map Prod.fst).Nodup ∧
  (s.key_to_pos.map Prod.snd).Nodup ∧
  (∀ p ∈ s.key_to_pos, p.2 < s.storage.cells.length ∧
      s.storage.cells.getD p.2 0 < s.storage.slots.length ∧
      (s.storage.slots.getD (s.storage.cells.getD p.2 0) none).map Prod.fst = some p.2) ∧
  (∀ i < s.storage.slots.length, ∀ e ∈ s.storage.slots.getD i none,
      e.1 < s.storage.cells.length ∧ s.storage.cells.getD e.1 0 = i ∧
      e.1 ∈ s.key_to_pos.map Prod.snd) ∧
  List.Sorted (· ≤ ·) s.storage.free_list ∧
  s.storage.free_list.Nodup ∧
  (∀ f ∈ s.storage.free_list, f < s.storage.slots.length ∧
      s.storage.slots.getD f none = none) ∧
  (∀ i < s.storage.slots.length, s.storage.slots.getD i none = none →
      i ∈ s.storage.free_list) ∧
  s.key_to_pos.length = (s.storage.slots.filterMap id).length

instance (s : StableMap K V) : Decidable (MapInv s) := by
  unfold MapInv; infer_instance

namespace ListFacts

variable {α β : Type}

theorem getD_set_self (l : List α) (i : Nat) (a d : α) (h : i < l.length) :
    (l.set i a).getD i d = a := by
  simp [List.getD_eq_getElem?_getD, List.getElem?_set_self h]

theorem getD_set_ne (l : List α) {i j : Nat} (a d : α) (h : i ≠ j) :
    (l.set i a).getD j d = l.getD j d := by
  simp [List.getD_eq_getElem?_getD, List.getElem?_set_ne h]

theorem getD_append_left (l₁ l₂ : List α) {i : Nat} (d : α) (h : i < l₁.length) :
    (l₁ ++ l₂).getD i d = l₁.getD i d := by
  simp [List.getD_eq_getElem?_getD, List.getElem?_append_left h]

theorem getD_append_right (l₁ l₂ : List α) {i : Nat} (d : α) (h : l₁.length ≤ i) :
    (l₁ ++ l₂).getD i d = l₂.getD (i - l₁.length) d := by
  simp [List.getD_eq_getElem?_getD, List.getElem?_append_right h]

theorem getD_append_self (l : List α) (a d : α) :
    (l ++ [a]).getD l.length d = a := by
  rw [getD_append_right _ _ _ le_rfl]
  simp

theorem getD_of_le (l : List α) (d : α) {i : Nat} (h : l.length ≤ i) :
    l.getD i d = d :=
  List.getD_eq_default l d h

end ListFacts

namespace AssocFacts

theorem lookup_eq_none_iff (l : List (K × Nat)) (k : K) :
    lookup l k = none ↔ ∀ p ∈ l, p.1 ≠ k := by
  simp [lookup, List.find?_eq_none]

theorem lookup_cons (p : K × Nat) (l : List (K × Nat)) (k : K) :
    lookup (p :: l) k = if p.1 = k then some p.2 else lookup l k := by
  by_cases h : p.1 = k <;> simp [lookup, List.find?_cons, h]

theorem eraseKey_cons (p : K × Nat) (l : List (K × Nat)) (k : K) :
    eraseKey (p :: l) k = if p.1 = k then l else p :: eraseKey l k := by
  by_cases h : p.1 = k <;> simp [eraseKey, List.eraseP_cons, h]

theorem mem_of_lookup_eq_some {l : List (K × Nat)} {k : K} {c : Nat}
    (h : lookup l k = some c) : (k, c) ∈ l := by
  unfold lookup at h
  cases hf : l.find? fun p => p.1 = k with
  | none => simp [hf] at h
  | some p =>
    have hm := List.mem_of_find?_eq_some hf
    have hk : p.1 = k := by simpa using List.find?_some hf
    rw [hf] at h
    have hc : p.2 = c := by simpa using h
    obtain ⟨a, b⟩ := p
    simp only at hk hc
    subst hk; subst hc
    exact hm

theorem lookup_append (l₁ l₂ : List (K × Nat)) (k : K) :
    lookup (l₁ ++ l₂) k = (lookup l₁ k).or (lookup l₂ k) := by
  unfold lookup
  rw [List.find?_append]
  cases l₁.find? fun p => p.1 = k <;> simp

theorem lookup_of_mem_nodup {l : List (K × Nat)} {k : K} {c : Nat}
    (hn : (l.map Prod.fst).Nodup) (hm : (k, c) ∈ l) : lookup l k = some c := by
  induction l with
  | nil => simp at hm
  | cons p l ih =>
    simp only [List.map_cons, List.nodup_cons] at hn
    rcases List.mem_cons.mp hm with h | h
    · subst h; simp [lookup_cons]
    · have hne : p.1 ≠ k := by
        intro hk
        apply hn.1
        rw [hk]
        exact List.mem_map.mpr ⟨(k, c), h, rfl⟩
      rw [lookup_cons, if_neg hne]
      exact ih hn.2 h

theorem lookup_eraseKey_ne (l : List (K × Nat)) {k k' : K} (h : k' ≠ k) :
    lookup (eraseKey l k') k = lookup l k := by
  induction l with
  | nil => rfl
  | cons p l ih =>
    rw [eraseKey_cons]
    by_cases hp : p.1 = k'
    · rw [if_pos hp, lookup_cons, if_neg (by rw [hp]; exact h)]
    · rw [if_neg hp, lookup_cons, lookup_cons]
      by_cases hpk : p.1 = k
      · rw [if_pos hpk, if_pos hpk]
      · rw [if_neg hpk, if_neg hpk]; exact ih

theorem lookup_eraseKey_self {l : List (K × Nat)} (k : K)
    (hn : (l.map Prod.fst).Nodup) : lookup (eraseKey l k) k = none := by
  induction l with
  | nil => rfl
  | cons p l ih =>
    simp only [List.map_cons, List.nodup_cons] at hn
    rw [eraseKey_cons]
    by_cases hp : p.1 = k
    · rw [if_pos hp, lookup_eq_none_iff]
      intro q hq hqk
      apply hn.1
      have : q.1 ∈ l.map Prod.fst := List.mem_map.mpr ⟨q, hq, rfl⟩
      rwa [hqk, ← hp] at this
    · rw [if_neg hp, lookup_cons, if_neg hp]
      exact ih hn.2

theorem eraseKey_sublist (l : List (K × Nat)) (k : K) :
    (eraseKey l k).Sublist l :=
  List.eraseP_sublist l

theorem mem_eraseKey_of_ne {l : List (K × Nat)} {k : K} {p : K × Nat}
    (hne : p.1 ≠ k) (hp : p ∈ l) : p ∈ eraseKey l k := by
  unfold eraseKey
  rw [List.mem_eraseP_of_neg (by simpa using hne)]
  exact hp

theorem length_eraseKey {l : List (K × Nat)} {k : K} {c : Nat}
    (h : lookup l k = some c) : (eraseKey l k).length + 1 = l.length := by
  have hm : (k, c) ∈ l := mem_of_lookup_eq_some h
  have hlen := List.length_eraseP_of_mem hm (p := fun p => p.1 = k) (by simp)
  unfold eraseKey
  rw [hlen]
  have : 1 ≤ l.length := List.length_pos.mpr (by rintro rfl; simp at hm)
  omega

theorem snd_not_mem_eraseKey {l : List (K × Nat)} {k : K} {c : Nat}
    (hcids : (l.map Prod.snd).Nodup) (h : lookup l k = some c) :
    c ∉ (eraseKey l k).map Prod.snd := by
  induction l with
  | nil => simp [lookup] at h
  | cons p l ih =>
    simp only [List.map_cons, List.nodup_cons] at hcids
    rw [eraseKey_cons]
    by_cases hp : p.1 = k
    · rw [if_pos hp]
      have hc : p.2 = c := by rw [lookup_cons, if_pos hp] at h; simpa using h
      exact hc ▸ hcids.1
    · rw [if_neg hp]
      have hl : lookup l k = some c := by rw [lookup_cons, if_neg hp] at h; exact h
      simp only [List.map_cons, List.mem_cons]
      rintro (hc | hc)
      · apply hcids.1
        have : c ∈ l.map Prod.snd :=
          List.mem_map.mpr ⟨(k, c), mem_of_lookup_eq_some hl, rfl⟩
        rwa [hc] at this
      · exact ih hcids.2 hl hc

end AssocFacts

namespace OptFacts

variable {α : Type}

theorem filterMap_id_all_none {l : List (Option α)} (h : ∀ x ∈ l, x = none) :
    l.filterMap id = [] := by
  induction l with
  | nil => rfl
  | cons x xs ih =>
    have hx := h x (by simp)
    subst hx
    simpa using ih fun y hy => h y (by simp [hy])

theorem filterMap_id_set_some {l : List (Option α)} {i : Nat} (a : α)
    (hi : i < l.length) (h : l.getD i none = none) :
    ((l.set i (some a)).filterMap id).Perm (a :: l.filterMap id) := by
  induction l generalizing i with
  | nil => simp at hi
  | cons x xs ih =>
    cases i with
    | zero =>
      have hx : x = none := h
      subst hx
      simp
    | succ j =>
      have hj : j < xs.length := by simpa using hi
      have hx := ih (i := j) hj h
      cases x with
      | none => simpa using hx
      | some b =>
        simp only [List.set_cons_succ, List.filterMap_cons, id]
        exact (hx.cons b).trans (List.Perm.swap a b _)

theorem filterMap_id_set_none {l : List (Option α)} {i : Nat} {a : α}
    (h : l.getD i none = some a) :
    (l.filterMap id).Perm (a :: (l.set i none).filterMap id) := by
  induction l generalizing i with
  | nil => simp [List.getD] at h
  | cons x xs ih =>
    cases i with
    | zero =>
      have hx : x = some a := h
      subst hx
      simp
    | succ j =>
      have hx := ih (i := j) h
      cases x with
      | none => simpa using hx
      | some b =>
        simp only [List.set_cons_succ, List.filterMap_cons, id]
        exact (hx.cons b).trans (List.Perm.swap a b _)

theorem lt_length_of_getD_eq_some {l : List (Option α)} {i : Nat} {a : α}
    (h : l.getD i none = some a) : i < l.length := by
  by_contra hge
  rw [List.getD_eq_default _ _ (by omega)] at h
  exact Option.noConfusion h

theorem length_filterMap_id_set_some_of_some {l : List (Option α)} {i : Nat} {a b : α}
    (h : l.getD i none = some a) :
    ((l.set i (some b)).filterMap id).length = (l.filterMap id).length := by
  have hi : i < l.length := lt_length_of_getD_eq_some h
  have h1 : l.set i (some b) = (l.set i none).set i (some b) := by
    rw [List.set_set]
  have h2 : (l.set i none).getD i none = none :=
    ListFacts.getD_set_self _ _ _ _ hi
  have p1 := filterMap_id_set_some (l := l.set i none) (i := i) b
    (by simpa using hi) h2
  rw [List.set_set] at p1
  have p2 := filterMap_id_set_none (l := l) (i := i) h
  rw [p1.length_eq, p2.length_eq]
  simp

theorem length_filterMap_id_add (l : List (Option α)) :
    (l.filterMap id).length + l.countP (fun o => o.isNone) = l.length := by
  induction l with
  | nil => rfl
  | cons x xs ih =>
    cases x <;> simp [List.countP_cons, List.filterMap_cons] <;> omega

theorem length_filterMap_id_of_no_none {l : List (Option α)}
    (h : ∀ x ∈ l, x ≠ none) : (l.filterMap id).length = l.length := by
  have hz : l.countP (fun o => o.isNone) = 0 := by
    rw [List.countP_eq_zero]
    intro x hx
    cases x with
    | none => exact absurd rfl (h none hx)
    | some b => simp
  have := length_filterMap_id_add l
  omega

theorem countP_range_getD (l : List (Option α)) :
    (List.range l.length).countP (fun i => (l.getD i none).isNone) =
      l.countP (fun o => o.isNone) := by
  induction l with
  | nil => rfl
  | cons x xs ih =>
    rw [List.length_cons, List.range_succ_eq_map, List.countP_cons, List.countP_map]
    have : ((fun i => ((x :: xs).getD i none).isNone) ∘ Nat.succ) =
        fun i => (xs.getD i none).isNone := by
      funext i
      rfl
    rw [this, ih]
    cases x <;> simp [List.countP_cons]

theorem popLastSome_eq_none_iff {l : List (Option α)} :
    popLastSome l = none ↔ ∀ x ∈ l, x = none := by
  induction l with
  | nil => simp [popLastSome]
  | cons x xs ih =>
    cases hx : popLastSome xs with
    | some r =>
      obtain ⟨rest, e⟩ := r
      simp only [popLastSome, hx]
      constructor
      · intro h; exact Option.noConfusion h
      · intro h
        have : popLastSome xs = none := ih.mpr fun y hy => h y (by simp [hy])
        rw [hx] at this
        exact Option.noConfusion this
    | none =>
      cases x with
      | some e =>
        simp only [popLastSome, hx]
        constructor
        · intro h; exact Option.noConfusion h
        · intro h
          have := h (some e) (by simp)
          exact Option.noConfusion this
      | none =>
        simp only [popLastSome, hx]
        constructor
        · intro _ y hy
          rcases List.mem_cons.mp hy with h | h
          · exact h
          · exact ih.mp hx y h
        · intro _; trivial

theorem popLastSome_spec {l rest : List (Option α)} {e : α}
    (h : popLastSome l = some (rest, e)) :
    ∃ ns, (∀ x ∈ ns, x = none) ∧ l = rest ++ some e :: ns := by
  induction l generalizing rest with
  | nil => simp [popLastSome] at h
  | cons x xs ih =>
    cases hx : popLastSome xs with
    | some r =>
      obtain ⟨rest', e'⟩ := r
      simp only [popLastSome, hx, Option.some.injEq, Prod.mk.injEq] at h
      obtain ⟨h1, h2⟩ := h
      subst h2
      subst h1
      obtain ⟨ns, hns, hxs⟩ := ih hx
      refine ⟨ns, hns, ?_⟩
      rw [List.cons_append, ← hxs]
    | none =>
      cases x with
      | some e' =>
        simp only [popLastSome, hx, Option.some.injEq, Prod.mk.injEq] at h
        obtain ⟨h1, h2⟩ := h
        subst h2
        subst h1
        exact ⟨xs, popLastSome_eq_none_iff.mp hx, by simp⟩
      | none =>
        simp only [popLastSome, hx] at h
        exact Option.noConfusion h

end OptFacts

namespace CompactFacts

theorem exists_getD_of_mem {α : Type} {l : List (Option α)} {x : Option α} (hx : x ∈ l) :
    ∃ i, i < l.length ∧ l.getD i none = x := by
  obtain ⟨i, hi⟩ := List.mem_iff_getElem?.mp hx
  have hlt : i < l.length := by
    by_contra hge
    rw [List.getElem?_eq_none (by omega)] at hi
    exact Option.noConfusion hi
  exact ⟨i, hlt, by rw [List.getD_eq_getElem?_getD, hi]; rfl⟩

/-- The state facts re-established by one relocation step of `PosVec::compact`:
moving the popped tail entry `(cid, v)` into the free slot `f` preserves the
occupied multiset, keeps the remaining frees exactly covering the remaining
holes, and restores the stored-position invariant for the updated cell
table. -/
theorem compactGo_move {V : Type} {cells : List Nat} {rest ns : List (Option (Nat × V))}
    {f cid : Nat} {v : V} {fs : List Nat}
    (hns : ∀ x ∈ ns, x = none)
    (hf : f < rest.length)
    (hsort : List.Sorted (· < ·) (f :: fs))
    (H2 : ∀ i < (rest ++ some (cid, v) :: ns).length,
        (rest ++ some (cid, v) :: ns).getD i none = none → i ∈ f :: fs)
    (H3 : ∀ g ∈ f :: fs, g < (rest ++ some (cid, v) :: ns).length →
        (rest ++ some (cid, v) :: ns).getD g none = none)
    (H4 : ∀ i < (rest ++ some (cid, v) :: ns).length,
        ∀ e ∈ (rest ++ some (cid, v) :: ns).getD i none,
          e.1 < cells.length ∧ cells.getD e.1 0 = i) :
    ((rest.set f (some (cid, v))).filterMap id).Perm
        ((rest ++ some (cid, v) :: ns).filterMap id) ∧
    (∀ i < (rest.set f (some (cid, v))).length,
        (rest.set f (some (cid, v))).getD i none = none → i ∈ fs) ∧
    (∀ g ∈ fs, g < (rest.set f (some (cid, v))).length →
        (rest.set f (some (cid, v))).getD g none = none) ∧
    (∀ i < (rest.set f (some (cid, v))).length,
        ∀ e ∈ (rest.set f (some (cid, v))).getD i none,
          e.1 < (cells.set cid f).length ∧ (cells.set cid f).getD e.1 0 = i) := by
  have hlen : (rest ++ some (cid, v) :: ns).length = rest.length + ns.length + 1 := by
    simp [List.length_append]
    omega
  have hslotf : (rest ++ some (cid, v) :: ns).getD f none = rest.getD f none :=
    ListFacts.getD_append_left _ _ _ hf
  have hrestf : rest.getD f none = none := by
    rw [← hslotf]
    exact H3 f (by simp) (by omega)
  have hentry : (rest ++ some (cid, v) :: ns).getD rest.length none = some (cid, v) := by
    rw [ListFacts.getD_append_right _ _ _ le_rfl]
    simp
  have hcid := H4 rest.length (by omega) (cid, v) hentry
  have hcidlt : cid < cells.length := by simpa using hcid.1
  have hcidval : cells.getD cid 0 = rest.length := by simpa using hcid.2
  have hfm : (rest ++ some (cid, v) :: ns).filterMap id =
      rest.filterMap id ++ [(cid, v)] := by
    rw [List.filterMap_append]
    simp [OptFacts.filterMap_id_all_none hns]
  refine ⟨?_, ?_, ?_, ?_⟩
  · have p1 := OptFacts.filterMap_id_set_some (l := rest) (i := f) (cid, v) hf hrestf
    have p2 : (rest.filterMap id ++ [(cid, v)]).Perm ((cid, v) :: rest.filterMap id) := by
      simp
    rw [hfm]
    exact p1.trans p2.symm
  · intro i hi hnone
    rw [List.length_set] at hi
    have hif : i ≠ f := by
      intro h
      subst h
      rw [ListFacts.getD_set_self _ _ _ _ hf] at hnone
      exact Option.noConfusion hnone
    rw [ListFacts.getD_set_ne _ _ _ (Ne.symm hif)] at hnone
    have hmem : i ∈ f :: fs := by
      refine H2 i (by omega) ?_
      rw [ListFacts.getD_append_left _ _ _ hi]
      exact hnone
    rcases List.mem_cons.mp hmem with h | h
    · exact absurd h hif
    · exact h
  · intro g hg hglen
    rw [List.length_set] at hglen
    have hfg : f < g := (List.sorted_cons.mp hsort).1 g hg
    rw [ListFacts.getD_set_ne _ _ _ (by omega : f ≠ g)]
    have := H3 g (List.mem_cons_of_mem _ hg) (by omega)
    rwa [ListFacts.getD_append_left _ _ _ (by omega)] at this
  · intro i hi e he
    rw [List.length_set] at hi
    by_cases hif : i = f
    · subst hif
      rw [ListFacts.getD_set_self _ _ _ _ hf] at he
      have he' : e = (cid, v) := by
        have h' : some (cid, v) = some e := he
        simpa using h'.symm
      subst he'
      refine ⟨by simpa using hcidlt, ?_⟩
      exact ListFacts.getD_set_self _ _ _ _ hcidlt
    · rw [ListFacts.getD_set_ne _ _ _ (Ne.symm hif)] at he
      have hL : (rest ++ some (cid, v) :: ns).getD i none = some e := by
        rw [ListFacts.getD_append_left _ _ _ hi]
        exact he
      have h4 := H4 i (by omega) e hL
      have hecid : e.1 ≠ cid := by
        intro hec
        have h42 := h4.2
        rw [hec, hcidval] at h42
        omega
      refine ⟨by simpa using h4.1, ?_⟩
      rw [ListFacts.getD_set_ne _ _ _ (Ne.symm hecid)]
      exact h4.2

end CompactFacts

namespace CompactFacts

/-- Correctness of the `PosVec::compact` loop: when the free queue is an
ascending enumeration covering every hole of the slot vector (holes and
queued positions may also lie beyond the current length), the loop preserves
the multiset of occupied entries, leaves no hole, keeps the cell table's
length, and re-establishes the stored-position invariant. -/
theorem compactGo_spec {V : Type} (fs : List Nat) :
    ∀ (cells : List Nat) (slots : List (Option (Nat × V))) (f : Nat),
      List.Sorted (· < ·) (f :: fs) →
      (∀ i < slots.length, slots.getD i none = none → i ∈ f :: fs) →
      (∀ g ∈ f :: fs, g < slots.length → slots.getD g none = none) →
      (∀ i < slots.length, ∀ e ∈ slots.getD i none,
          e.1 < cells.length ∧ cells.getD e.1 0 = i) →
      (compactGo cells slots f fs).1.length = cells.length ∧
      ((compactGo cells slots f fs).2.filterMap id).Perm (slots.filterMap id) ∧
      (∀ x ∈ (compactGo cells slots f fs).2, x ≠ none) ∧
      (∀ i < (compactGo cells slots f fs).2.length,
          ∀ e ∈ (compactGo cells slots f fs).2.getD i none,
            e.1 < (compactGo cells slots f fs).1.length ∧
            (compactGo cells slots f fs).1.getD e.1 0 = i) := by
  induction fs with
  | nil =>
    intro cells slots f hsort H2 H3 H4
    cases hpop : popLastSome slots with
    | none =>
      simp only [compactGo, hpop]
      refine ⟨by trivial, ?_, by simp, by simp⟩
      rw [OptFacts.filterMap_id_all_none (OptFacts.popLastSome_eq_none_iff.mp hpop)]
      simp
    | some r =>
      obtain ⟨rest, cid, v⟩ := r
      obtain ⟨ns, hns, hsl⟩ := OptFacts.popLastSome_spec hpop
      subst hsl
      rw [compactGo.eq_def]
      simp only [hpop]
      by_cases hf : f < rest.length
      · simp only [if_pos hf]
        obtain ⟨hperm, hJ2, hJ3, hJ4⟩ :=
          compactGo_move hns hf hsort H2 H3 H4
        refine ⟨by simp, hperm, ?_, hJ4⟩
        intro x hx hxn
        subst hxn
        obtain ⟨i, hi, hgd⟩ := exists_getD_of_mem hx
        exact absurd (hJ2 i hi hgd) (by simp)
      · simp only [if_neg hf]
        have hlen : (rest ++ some (cid, v) :: ns).length = rest.length + ns.length + 1 := by
          simp [List.length_append]
          omega
        have hfm : (rest ++ some (cid, v) :: ns).filterMap id =
            rest.filterMap id ++ [(cid, v)] := by
          rw [List.filterMap_append]
          simp [OptFacts.filterMap_id_all_none hns]
        have hrest_no_hole : ∀ i < rest.length, rest.getD i none ≠ none := by
          intro i hi hnone
          have hsl : (rest ++ some (cid, v) :: ns).getD i none = none := by
            rw [ListFacts.getD_append_left _ _ _ hi]
            exact hnone
          have := H2 i (by omega) hsl
          rcases List.mem_cons.mp this with h | h
          · omega
          · simp at h
        refine ⟨by trivial, ?_, ?_, ?_⟩
        · rw [hfm, List.filterMap_append]
          simp
        · intro x hx
          rcases List.mem_append.mp hx with h | h
          · obtain ⟨i, hi, hgd⟩ := exists_getD_of_mem h
            intro hxn
            subst hxn
            exact hrest_no_hole i hi hgd
          · intro hxn
            subst hxn
            simp at h
        · intro i hi e he
          rw [List.length_append, List.length_cons] at hi
          by_cases hir : i < rest.length
          · rw [ListFacts.getD_append_left _ _ _ hir] at he
            have hL : (rest ++ some (cid, v) :: ns).getD i none = some e := by
              rw [ListFacts.getD_append_left _ _ _ hir]
              exact he
            exact H4 i (by omega) e hL
          · have hieq : i = rest.length := by simp at hi; omega
            subst hieq
            rw [ListFacts.getD_append_self] at he
            have he' : e = (cid, v) := by
              have h' : some (cid, v) = some e := he
              simpa using h'.symm
            subst he'
            have hentry : (rest ++ some (cid, v) :: ns).getD rest.length none =
                some (cid, v) := by
              rw [ListFacts.getD_append_right _ _ _ le_rfl]
              simp
            exact H4 rest.length (by omega) (cid, v) hentry
  | cons f2 fs2 ih =>
    intro cells slots f hsort H2 H3 H4
    cases hpop : popLastSome slots with
    | none =>
      simp only [compactGo, hpop]
      refine ⟨by trivial, ?_, by simp, by simp⟩
      rw [OptFacts.filterMap_id_all_none (OptFacts.popLastSome_eq_none_iff.mp hpop)]
      simp
    | some r =>
      obtain ⟨rest, cid, v⟩ := r
      obtain ⟨ns, hns, hsl⟩ := OptFacts.popLastSome_spec hpop
      subst hsl
      rw [compactGo.eq_def]
      simp only [hpop]
      by_cases hf : f < rest.length
      · simp only [if_pos hf]
        obtain ⟨hperm, hJ2, hJ3, hJ4⟩ :=
          compactGo_move hns hf hsort H2 H3 H4
        have hsort2 : List.Sorted (· < ·) (f2 :: fs2) := (List.sorted_cons.mp hsort).2
        obtain ⟨hl, hp, hnh, hst⟩ := ih (cells.set cid f)
          (rest.set f (some (cid, v))) f2 hsort2 hJ2 hJ3 hJ4
        refine ⟨by rw [hl]; simp, hp.trans hperm, hnh, hst⟩
      · simp only [if_neg hf]
        have hlen : (rest ++ some (cid, v) :: ns).length = rest.length + ns.length + 1 := by
          simp [List.length_append]
          omega
        have hfm : (rest ++ some (cid, v) :: ns).filterMap id =
            rest.filterMap id ++ [(cid, v)] := by
          rw [List.filterMap_append]
          simp [OptFacts.filterMap_id_all_none hns]
        have hrest_no_hole : ∀ i < rest.length, rest.getD i none ≠ none := by
          intro i hi hnone
          have hsl : (rest ++ some (cid, v) :: ns).getD i none = none := by
            rw [ListFacts.getD_append_left _ _ _ hi]
            exact hnone
          have hmem := H2 i (by omega) hsl
          rcases List.mem_cons.mp hmem with h | h
          · omega
          · have hfg : f < i := (List.sorted_cons.mp hsort).1 i h
            omega
        refine ⟨by trivial, ?_, ?_, ?_⟩
        · rw [hfm, List.filterMap_append]
          simp
        · intro x hx
          rcases List.mem_append.mp hx with h | h
          · obtain ⟨i, hi, hgd⟩ := exists_getD_of_mem h
            intro hxn
            subst hxn
            exact hrest_no_hole i hi hgd
          · intro hxn
            subst hxn
            simp at h
        · intro i hi e he
          rw [List.length_append, List.length_cons] at hi
          by_cases hir : i < rest.length
          · rw [ListFacts.getD_append_left _ _ _ hir] at he
            have hL : (rest ++ some (cid, v) :: ns).getD i none = some e := by
              rw [ListFacts.getD_append_left _ _ _ hir]
              exact he
            exact H4 i (by omega) e hL
          · have hieq : i = rest.length := by simp at hi; omega
            subst hieq
            rw [ListFacts.getD_append_self] at he
            have he' : e = (cid, v) := by
              have h' : some (cid, v) = some e := he
              simpa using h'.symm
            subst he'
            have hentry : (rest ++ some (cid, v) :: ns).getD rest.length none =
                some (cid, v) := by
              rw [ListFacts.getD_append_right _ _ _ le_rfl]
              simp
            exact H4 rest.length (by omega) (cid, v) hentry

end CompactFacts

namespace OptFacts

theorem map_fst_eq_some {α β : Type} {o : Option (α × β)} {a : α}
    (h : o.map Prod.fst = some a) : ∃ b, o = some (a, b) := by
  cases o with
  | none => simp at h
  | some p =>
    obtain ⟨x, y⟩ := p
    simp at h
    exact ⟨y, by rw [h]⟩

theorem mem_of_getD_lt {α : Type} {l : List α} {i : Nat} {d : α} (h : i < l.length) :
    l.getD i d ∈ l := by
  rw [List.getD_eq_getElem l d h]
  exact List.getElem_mem h

theorem mem_of_getD {α : Type} {l : List (Option α)} {i : Nat} {e : α}
    (h : l.getD i none = some e) : some e ∈ l := by
  have hi := lt_length_of_getD_eq_some h
  rw [← h]
  exact mem_of_getD_lt hi

end OptFacts

namespace StableMap

theorem MapInv_empty : MapInv (emptyMap : StableMap K V) := by
  refine ⟨by simp [emptyMap], by simp [emptyMap], by simp [emptyMap], ?_,
    by simp [emptyMap, LinearStorage.emptyLS], by simp [emptyMap, LinearStorage.emptyLS],
    by simp [emptyMap, LinearStorage.emptyLS], ?_, by simp [emptyMap, LinearStorage.emptyLS]⟩
  · intro i hi
    simp [emptyMap, LinearStorage.emptyLS] at hi
  · intro i hi
    simp [emptyMap, LinearStorage.emptyLS] at hi

theorem replaceValue_eq {st : LinearStorage V} {cid : Nat} {w : V} (v : V)
    (hw : st.slots.getD (st.cells.getD cid 0) none = some (cid, w)) :
    st.replaceValue cid v =
      ⟨st.cells, st.slots.set (st.cells.getD cid 0) (some (cid, v)), st.free_list⟩ := by
  unfold LinearStorage.replaceValue
  rw [hw]

theorem take_eq {st : LinearStorage V} {cid c : Nat} {w : V}
    (hw : st.slots.getD (st.cells.getD cid 0) none = some (c, w)) :
    st.take cid = (⟨st.cells, st.slots.set (st.cells.getD cid 0) none,
      st.free_list.orderedInsert (· ≤ ·) (st.cells.getD cid 0)⟩, some w) := by
  unfold LinearStorage.take
  rw [hw]

theorem LS_insert_nil {st : LinearStorage V} (v : V) (h : st.free_list = []) :
    st.insert v = (⟨st.cells ++ [st.slots.length],
      st.slots ++ [some (st.cells.length, v)], []⟩, st.cells.length) := by
  unfold LinearStorage.insert
  rw [h]

theorem LS_insert_cons {st : LinearStorage V} (v : V) {f : Nat} {rest : List Nat}
    (h : st.free_list = f :: rest) :
    st.insert v = (⟨st.cells ++ [f],
      st.slots.set f (some (st.cells.length, v)), rest⟩, st.cells.length) := by
  unfold LinearStorage.insert
  rw [h]

theorem MapInv_insert (s : StableMap K V) (k : K) (v : V) (h : MapInv s) :
    MapInv (s.insert k v) := by
  obtain ⟨h1, h2, h3, h4, h5, h6, h7, h8, h9⟩ := h
  cases hlk : lookup s.key_to_pos k with
  | some cid =>
    have hmem : (k, cid) ∈ s.key_to_pos := AssocFacts.mem_of_lookup_eq_some hlk
    obtain ⟨hcl, hil, hft⟩ := h3 (k, cid) hmem
    obtain ⟨w, hw⟩ := OptFacts.map_fst_eq_some hft
    simp only [StableMap.insert, hlk, replaceValue_eq v hw]
    refine ⟨h1, h2, ?_, ?_, h5, h6, ?_, ?_, ?_⟩
    · intro p hp
      obtain ⟨hpc, hpi, hpf⟩ := h3 p hp
      refine ⟨hpc, by simpa using hpi, ?_⟩
      by_cases hpe : s.storage.cells.getD p.2 0 = s.storage.cells.getD cid 0
      · have hpcid : p.2 = cid := by
          obtain ⟨w', hw'⟩ := OptFacts.map_fst_eq_some hpf
          rw [hpe, hw] at hw'
          exact (Prod.mk.injEq .. ▸ Option.some.inj hw').1.symm
        rw [hpe, ListFacts.getD_set_self _ _ _ _ hil]
        simp [hpcid]
      · rw [ListFacts.getD_set_ne _ _ _ fun he => hpe he.symm]
        exact hpf
    · intro i hi e he
      rw [List.length_set] at hi
      by_cases hie : i = s.storage.cells.getD cid 0
      · subst hie
        rw [ListFacts.getD_set_self _ _ _ _ hil] at he
        have he' : e = (cid, v) := by
          have h' : some (cid, v) = some e := he
          simpa using h'.symm
        subst he'
        obtain ⟨hc1, hc2, hc3⟩ := h4 _ hil (cid, w) hw
        exact ⟨by simpa using hc1, by simp, by simpa using hc3⟩
      · rw [ListFacts.getD_set_ne _ _ _ (Ne.symm hie)] at he
        exact h4 i hi e he
    · intro f hf
      obtain ⟨hf1, hf2⟩ := h7 f hf
      have hfne : s.storage.cells.getD cid 0 ≠ f := by
        intro he
        rw [he] at hw
        rw [hw] at hf2
        exact Option.noConfusion hf2
      refine ⟨by simpa using hf1, ?_⟩
      rw [ListFacts.getD_set_ne _ _ _ hfne]
      exact hf2
    · intro i hi hn
      rw [List.length_set] at hi
      have hie : i ≠ s.storage.cells.getD cid 0 := by
        intro he
        subst he
        rw [ListFacts.getD_set_self _ _ _ _ hil] at hn
        exact Option.noConfusion hn
      rw [ListFacts.getD_set_ne _ _ _ (Ne.symm hie)] at hn
      exact h8 i hi hn
    · rw [OptFacts.length_filterMap_id_set_some_of_some hw]
      exact h9
  | none =>
    have hknotin : ∀ p ∈ s.key_to_pos, p.1 ≠ k := (AssocFacts.lookup_eq_none_iff _ _).mp hlk
    have hkfst : k ∉ s.key_to_pos.map Prod.fst := by
      intro hk
      obtain ⟨p, hp, hpk⟩ := List.mem_map.mp hk
      exact hknotin p hp hpk
    have hccfresh : s.storage.cells.length ∉ s.key_to_pos.map Prod.snd := by
      intro hk
      obtain ⟨p, hp, hpk⟩ := List.mem_map.mp hk
      exact absurd (hpk ▸ (h3 p hp).1) (lt_irrefl _)
    cases hfr : s.storage.free_list with
    | nil =>
      simp only [StableMap.insert, hlk, LS_insert_nil v hfr]
      refine ⟨?_, ?_, ?_, ?_, by simp, by simp, by simp, ?_, ?_⟩
      · rw [List.map_append]
        simp [List.nodup_append, h1, hkfst]
      · rw [List.map_append]
        simp [List.nodup_append, h2, hccfresh]
      · intro p hp
        rcases List.mem_append.mp hp with hp | hp
        · obtain ⟨hpc, hpi, hpf⟩ := h3 p hp
          rw [ListFacts.getD_append_left _ _ _ hpc]
          refine ⟨by simp only [List.length_append, List.length_cons, List.length_nil, List.length_set]; omega, by simp only [List.length_append, List.length_cons, List.length_nil, List.length_set]; omega, ?_⟩
          rw [ListFacts.getD_append_left _ _ _ hpi]
          exact hpf
        · have hp' : p = (k, s.storage.cells.length) := by simpa using hp
          subst hp'
          rw [ListFacts.getD_append_self]
          refine ⟨by simp, by simp, ?_⟩
          rw [ListFacts.getD_append_self]
          simp
      · intro i hi e he
        rw [List.length_append, List.length_cons] at hi
        by_cases hin : i < s.storage.slots.length
        · rw [ListFacts.getD_append_left _ _ _ hin] at he
          obtain ⟨hc1, hc2, hc3⟩ := h4 i hin e he
          refine ⟨by simp only [List.length_append, List.length_cons, List.length_nil, List.length_set]; omega, ?_, ?_⟩
          · rw [ListFacts.getD_append_left _ _ _ hc1]
            exact hc2
          · rw [List.map_append]
            exact List.mem_append_left _ hc3
        · have hieq : i = s.storage.slots.length := by simp at hi; omega
          subst hieq
          rw [ListFacts.getD_append_self] at he
          have he' : e = (s.storage.cells.length, v) := by
            have h' : some (s.storage.cells.length, v) = some e := he
            simpa using h'.symm
          subst he'
          refine ⟨by simp, by rw [ListFacts.getD_append_self], ?_⟩
          rw [List.map_append]
          exact List.mem_append_right _ (by simp)
      · intro i hi hn
        rw [List.length_append, List.length_cons] at hi
        by_cases hin : i < s.storage.slots.length
        · rw [ListFacts.getD_append_left _ _ _ hin] at hn
          have := h8 i hin hn
          rw [hfr] at this
          simp at this
        · have hieq : i = s.storage.slots.length := by simp at hi; omega
          subst hieq
          rw [ListFacts.getD_append_self] at hn
          exact Option.noConfusion hn
      · rw [List.filterMap_append, List.length_append, List.length_append]
        simp [h9]
    | cons f rest =>
      obtain ⟨hf1, hf2⟩ := h7 f (by rw [hfr]; exact List.mem_cons_self f rest)
      have hsorted := hfr ▸ h5
      have hnodup := hfr ▸ h6
      simp only [StableMap.insert, hlk, LS_insert_cons v hfr]
      refine ⟨?_, ?_, ?_, ?_, ?_, ?_, ?_, ?_, ?_⟩
      · rw [List.map_append]
        simp [List.nodup_append, h1, hkfst]
      · rw [List.map_append]
        simp [List.nodup_append, h2, hccfresh]
      · intro p hp
        rcases List.mem_append.mp hp with hp | hp
        · obtain ⟨hpc, hpi, hpf⟩ := h3 p hp
          rw [ListFacts.getD_append_left _ _ _ hpc]
          have hpif : s.storage.cells.getD p.2 0 ≠ f := by
            intro he
            rw [he, hf2] at hpf
            exact Option.noConfusion hpf
          refine ⟨by simp only [List.length_append, List.length_cons, List.length_nil, List.length_set]; omega, by simpa using hpi, ?_⟩
          rw [ListFacts.getD_set_ne _ _ _ (Ne.symm hpif)]
          exact hpf
        · have hp' : p = (k, s.storage.cells.length) := by simpa using hp
          subst hp'
          rw [ListFacts.getD_append_self]
          refine ⟨by simp, by simpa using hf1, ?_⟩
          rw [ListFacts.getD_set_self _ _ _ _ hf1]
          simp
      · intro i hi e he
        rw [List.length_set] at hi
        by_cases hif : i = f
        · subst hif
          rw [ListFacts.getD_set_self _ _ _ _ hf1] at he
          have he' : e = (s.storage.cells.length, v) := by
            have h' : some (s.storage.cells.length, v) = some e := he
            simpa using h'.symm
          subst he'
          refine ⟨by simp, by rw [ListFacts.getD_append_self], ?_⟩
          rw [List.map_append]
          exact List.mem_append_right _ (by simp)
        · rw [ListFacts.getD_set_ne _ _ _ (Ne.symm hif)] at he
          obtain ⟨hc1, hc2, hc3⟩ := h4 i hi e he
          refine ⟨by simp only [List.length_append, List.length_cons, List.length_nil, List.length_set]; omega, ?_, ?_⟩
          · rw [ListFacts.getD_append_left _ _ _ hc1]
            exact hc2
          · rw [List.map_append]
            exact List.mem_append_left _ hc3
      · exact (List.sorted_cons.mp hsorted).2
      · exact (List.nodup_cons.mp hnodup).2
      · intro g hg
        obtain ⟨hg1, hg2⟩ := h7 g (by rw [hfr]; exact List.mem_cons_of_mem _ hg)
        have hgf : g ≠ f := by
          intro he
          exact (List.nodup_cons.mp hnodup).1 (he ▸ hg)
        refine ⟨by simpa using hg1, ?_⟩
        rw [ListFacts.getD_set_ne _ _ _ (Ne.symm hgf)]
        exact hg2
      · intro i hi hn
        rw [List.length_set] at hi
        have hif : i ≠ f := by
          intro he
          subst he
          rw [ListFacts.getD_set_self _ _ _ _ hf1] at hn
          exact Option.noConfusion hn
        rw [ListFacts.getD_set_ne _ _ _ (Ne.symm hif)] at hn
        have := h8 i hi hn
        rw [hfr] at this
        rcases List.mem_cons.mp this with he | he
        · exact absurd he hif
        · exact he
      · have hperm := OptFacts.filterMap_id_set_some (l := s.storage.slots) (i := f)
          (s.storage.cells.length, v) hf1 hf2
        rw [List.length_append, hperm.length_eq]
        simp [h9]

theorem MapInv_remove (s : StableMap K V) (k : K) (h : MapInv s) :
    MapInv (s.remove k) := by
  obtain ⟨h1, h2, h3, h4, h5, h6, h7, h8, h9⟩ := h
  cases hlk : lookup s.key_to_pos k with
  | none =>
    simp only [StableMap.remove, hlk]
    exact ⟨h1, h2, h3, h4, h5, h6, h7, h8, h9⟩
  | some cid =>
    have hmem : (k, cid) ∈ s.key_to_pos := AssocFacts.mem_of_lookup_eq_some hlk
    obtain ⟨hcl, hil, hft⟩ := h3 (k, cid) hmem
    obtain ⟨w, hw⟩ := OptFacts.map_fst_eq_some hft
    simp only [StableMap.remove, hlk, take_eq hw]
    have hsub := AssocFacts.eraseKey_sublist s.key_to_pos k
    have hcid_not : cid ∉ (eraseKey s.key_to_pos k).map Prod.snd :=
      AssocFacts.snd_not_mem_eraseKey h2 hlk
    have hidxfree : s.storage.cells.getD cid 0 ∉ s.storage.free_list := by
      intro hmem'
      have hnone := (h7 _ hmem').2
      rw [hw] at hnone
      exact Option.noConfusion hnone
    refine ⟨?_, ?_, ?_, ?_, ?_, ?_, ?_, ?_, ?_⟩
    · exact (hsub.map Prod.fst).nodup h1
    · exact (hsub.map Prod.snd).nodup h2
    · intro p hp
      have hpkv := hsub.subset hp
      obtain ⟨hpc, hpi, hpf⟩ := h3 p hpkv
      have hpne : s.storage.cells.getD p.2 0 ≠ s.storage.cells.getD cid 0 := by
        intro he
        rw [he, hw] at hpf
        have hp2 : p.2 = cid := by simpa using hpf.symm
        exact hcid_not (hp2 ▸ List.mem_map.mpr ⟨p, hp, rfl⟩)
      refine ⟨hpc, by simpa using hpi, ?_⟩
      rw [ListFacts.getD_set_ne _ _ _ (Ne.symm hpne)]
      exact hpf
    · intro i hi e he
      rw [List.length_set] at hi
      have hie : i ≠ s.storage.cells.getD cid 0 := by
        intro he'
        subst he'
        rw [ListFacts.getD_set_self _ _ _ _ hil] at he
        exact Option.noConfusion he
      rw [ListFacts.getD_set_ne _ _ _ (Ne.symm hie)] at he
      obtain ⟨hc1, hc2, hc3⟩ := h4 i hi e he
      refine ⟨hc1, hc2, ?_⟩
      obtain ⟨q, hq, hqe⟩ := List.mem_map.mp hc3
      have hqk : q.1 ≠ k := by
        intro hqk'
        have hq2 : lookup s.key_to_pos q.1 = some q.2 :=
          AssocFacts.lookup_of_mem_nodup h1 (by rw [Prod.mk.eta]; exact hq)
        rw [hqk', hlk] at hq2
        have hq2c : q.2 = cid := by simpa using hq2.symm
        have he1 : e.1 = cid := by rw [← hqe, hq2c]
        apply hie
        rw [← hc2, he1]
      exact List.mem_map.mpr ⟨q, AssocFacts.mem_eraseKey_of_ne hqk hq, hqe⟩
    · exact List.Sorted.orderedInsert _ _ h5
    · exact ((List.perm_orderedInsert _ _ _).nodup_iff).mpr
        (List.nodup_cons.mpr ⟨hidxfree, h6⟩)
    · intro g hg
      rcases (List.mem_orderedInsert _).mp hg with he | hg'
      · subst he
        exact ⟨by simpa using hil, ListFacts.getD_set_self _ _ _ _ hil⟩
      · obtain ⟨hg1, hg2⟩ := h7 g hg'
        have hgne : g ≠ s.storage.cells.getD cid 0 := fun he => hidxfree (he ▸ hg')
        refine ⟨by simpa using hg1, ?_⟩
        rw [ListFacts.getD_set_ne _ _ _ (Ne.symm hgne)]
        exact hg2
    · intro i hi hn
      rw [List.length_set] at hi
      by_cases hie : i = s.storage.cells.getD cid 0
      · exact (List.mem_orderedInsert _).mpr (Or.inl hie)
      · rw [ListFacts.getD_set_ne _ _ _ (Ne.symm hie)] at hn
        exact (List.mem_orderedInsert _).mpr (Or.inr (h8 i hi hn))
    · have hperm := OptFacts.filterMap_id_set_none (l := s.storage.slots)
        (i := s.storage.cells.getD cid 0) hw
      have hl1 := AssocFacts.length_eraseKey hlk
      have hl2 := hperm.length_eq
      rw [List.length_cons] at hl2
      dsimp only
      omega

theorem forceCompact_free_nil (st : LinearStorage V) :
    st.forceCompact.free_list = [] := by
  unfold LinearStorage.forceCompact
  cases st.free_list <;> rfl

theorem MapInv_mapForceCompact (s : StableMap K V) (h : MapInv s) :
    MapInv (s.mapForceCompact) := by
  obtain ⟨h1, h2, h3, h4, h5, h6, h7, h8, h9⟩ := h
  cases hfr : s.storage.free_list with
  | nil =>
    simp only [StableMap.mapForceCompact, LinearStorage.forceCompact, hfr]
    refine ⟨h1, h2, h3, h4, by simp, by simp, by simp, ?_, h9⟩
    intro i hi hn
    have := h8 i hi hn
    rw [hfr] at this
    exact this
  | cons f fs =>
    have hsort : List.Sorted (· < ·) (f :: fs) :=
      List.Sorted.lt_of_le (hfr ▸ h5) (hfr ▸ h6)
    have hJ2 : ∀ i < s.storage.slots.length, s.storage.slots.getD i none = none →
        i ∈ f :: fs := fun i hi hn => hfr ▸ h8 i hi hn
    have hJ3 : ∀ g ∈ f :: fs, g < s.storage.slots.length →
        s.storage.slots.getD g none = none := fun g hg _ => (h7 g (hfr ▸ hg)).2
    have hJ4 : ∀ i < s.storage.slots.length, ∀ e ∈ s.storage.slots.getD i none,
        e.1 < s.storage.cells.length ∧ s.storage.cells.getD e.1 0 = i :=
      fun i hi e he => ⟨(h4 i hi e he).1, (h4 i hi e he).2.1⟩
    obtain ⟨hlen, hperm, hnoholes, hstored⟩ :=
      CompactFacts.compactGo_spec fs s.storage.cells s.storage.slots f hsort hJ2 hJ3 hJ4
    simp only [StableMap.mapForceCompact, LinearStorage.forceCompact, hfr]
    refine ⟨h1, h2, ?_, ?_, by simp, by simp, by simp, ?_, ?_⟩
    · intro p hp
      obtain ⟨hpc, hpi, hpf⟩ := h3 p hp
      obtain ⟨wp, hwp⟩ := OptFacts.map_fst_eq_some hpf
      have hm1 : some (p.2, wp) ∈ s.storage.slots := OptFacts.mem_of_getD hwp
      have hm2 : (p.2, wp) ∈ s.storage.slots.filterMap id :=
        List.mem_filterMap.mpr ⟨some (p.2, wp), hm1, rfl⟩
      have hm3 : (p.2, wp) ∈
          (compactGo s.storage.cells s.storage.slots f fs).2.filterMap id :=
        hperm.mem_iff.mpr hm2
      obtain ⟨a, ha, hae⟩ := List.mem_filterMap.mp hm3
      have ha' : some (p.2, wp) ∈ (compactGo s.storage.cells s.storage.slots f fs).2 := by
        rw [← hae]
        simpa using ha
      obtain ⟨j, hj, hgd⟩ := CompactFacts.exists_getD_of_mem ha'
      obtain ⟨hplt, hpeq⟩ := hstored j hj (p.2, wp) hgd
      refine ⟨by exact hplt, ?_, ?_⟩
      · rw [hpeq]
        exact hj
      · rw [hpeq, hgd]
        rfl
    · intro i hi e he
      obtain ⟨he1, he2⟩ := hstored i hi e he
      refine ⟨he1, he2, ?_⟩
      have hm1 : some e ∈ (compactGo s.storage.cells s.storage.slots f fs).2 :=
        OptFacts.mem_of_getD he
      have hm2 : e ∈ (compactGo s.storage.cells s.storage.slots f fs).2.filterMap id :=
        List.mem_filterMap.mpr ⟨some e, hm1, rfl⟩
      have hm3 : e ∈ s.storage.slots.filterMap id := hperm.mem_iff.mp hm2
      obtain ⟨a, ha, hae⟩ := List.mem_filterMap.mp hm3
      have ha' : some e ∈ s.storage.slots := by
        rw [← hae]
        simpa using ha
      obtain ⟨j, hj, hgd⟩ := CompactFacts.exists_getD_of_mem ha'
      exact (h4 j hj e hgd).2.2
    · intro i hi hn
      exact absurd rfl (hnoholes none (hn ▸ OptFacts.mem_of_getD_lt hi))
    · dsimp only
      rw [hperm.length_eq]
      exact h9

theorem MapInv_mapCompact (s : StableMap K V) (h : MapInv s) :
    MapInv (s.mapCompact) := by
  unfold StableMap.mapCompact LinearStorage.compact
  by_cases hc : s.storage.free_list.length ≤ max (s.storage.slots.length / 2) 8
  · simpa [hc] using h
  · simp only [if_neg hc]
    exact MapInv_mapForceCompact s h

theorem MapInv_clear (s : StableMap K V) : MapInv (s.clear) :=
  MapInv_empty

theorem drainDrop_eq_empty (s : StableMap K V) (n : Nat) :
    s.drainDrop n = emptyMap := rfl

theorem MapInv_drainDrop (s : StableMap K V) (n : Nat) : MapInv (s.drainDrop n) := by
  rw [drainDrop_eq_empty]
  exact MapInv_empty

theorem snd_inj_of_nodup {l : List (K × Nat)} (h2 : (l.map Prod.snd).Nodup)
    {p q : K × Nat} (hp : p ∈ l) (hq : q ∈ l) (he : p.2 = q.2) : p = q := by
  induction l with
  | nil => simp at hp
  | cons a l ih =>
    simp only [List.map_cons, List.nodup_cons] at h2
    rcases List.mem_cons.mp hp with hp' | hp' <;> rcases List.mem_cons.mp hq with hq' | hq'
    · rw [hp', hq']
    · exfalso
      apply h2.1
      rw [hp'] at he
      exact he ▸ List.mem_map.mpr ⟨q, hq', rfl⟩
    · exfalso
      apply h2.1
      rw [hq'] at he
      exact he ▸ List.mem_map.mpr ⟨p, hp', rfl⟩
    · exact ih h2.2 hp' hq'

theorem insert_eq_insertUnique {s : StableMap K V} {k : K} (v : V)
    (h : lookup s.key_to_pos k = none) :
    s.insert k v = s.insertUniqueUnchecked k v := by
  unfold StableMap.insert insertUniqueUnchecked
  rw [h]

theorem get_insert_self (s : StableMap K V) (k : K) (v : V) (h : MapInv s) :
    (s.insert k v).get k = some v := by
  obtain ⟨h1, h2, h3, h4, h5, h6, h7, h8, h9⟩ := h
  cases hlk : lookup s.key_to_pos k with
  | some cid =>
    have hmem : (k, cid) ∈ s.key_to_pos := AssocFacts.mem_of_lookup_eq_some hlk
    obtain ⟨hcl, hil, hft⟩ := h3 (k, cid) hmem
    dsimp only at hcl hil hft
    obtain ⟨w, hw⟩ := OptFacts.map_fst_eq_some hft
    simp only [StableMap.insert, hlk, replaceValue_eq v hw]
    simp only [StableMap.get, LinearStorage.getUnchecked, hlk, Option.some_bind]
    rw [ListFacts.getD_set_self _ _ _ _ hil]
    rfl
  | none =>
    cases hfr : s.storage.free_list with
    | nil =>
      simp only [StableMap.insert, hlk, LS_insert_nil v hfr]
      simp only [StableMap.get, AssocFacts.lookup_append, hlk]
      have hsing : lookup [(k, s.storage.cells.length)] k = some s.storage.cells.length := by
        simp [lookup, List.find?]
      rw [hsing]
      simp only [Option.or, Option.some_bind, LinearStorage.getUnchecked]
      rw [ListFacts.getD_append_self, ListFacts.getD_append_self]
      rfl
    | cons f rest =>
      obtain ⟨hf1, hf2⟩ := h7 f (by rw [hfr]; exact List.mem_cons_self f rest)
      simp only [StableMap.insert, hlk, LS_insert_cons v hfr]
      simp only [StableMap.get, AssocFacts.lookup_append, hlk]
      have hsing : lookup [(k, s.storage.cells.length)] k = some s.storage.cells.length := by
        simp [lookup, List.find?]
      rw [hsing]
      simp only [Option.or, Option.some_bind, LinearStorage.getUnchecked]
      rw [ListFacts.getD_append_self, ListFacts.getD_set_self _ _ _ _ hf1]
      rfl

theorem get_insert_ne (s : StableMap K V) (k k' : K) (v : V) (h : MapInv s)
    (hne : k' ≠ k) : (s.insert k v).get k' = s.get k' := by
  obtain ⟨h1, h2, h3, h4, h5, h6, h7, h8, h9⟩ := h
  cases hlk : lookup s.key_to_pos k with
  | some cid =>
    have hmem : (k, cid) ∈ s.key_to_pos := AssocFacts.mem_of_lookup_eq_some hlk
    obtain ⟨hcl, hil, hft⟩ := h3 (k, cid) hmem
    dsimp only at hcl hil hft
    obtain ⟨w, hw⟩ := OptFacts.map_fst_eq_some hft
    simp only [StableMap.insert, hlk, replaceValue_eq v hw]
    simp only [StableMap.get]
    cases hlk' : lookup s.key_to_pos k' with
    | none => rfl
    | some cid' =>
      have hmem' : (k', cid') ∈ s.key_to_pos := AssocFacts.mem_of_lookup_eq_some hlk'
      obtain ⟨hpc', hpi', hpf'⟩ := h3 (k', cid') hmem'
      dsimp only at hpc' hpi' hpf'
      have hidxne : s.storage.cells.getD cid' 0 ≠ s.storage.cells.getD cid 0 := by
        intro he
        rw [he, hw] at hpf'
        have hc : cid' = cid := by simpa using hpf'.symm
        have hpq := snd_inj_of_nodup h2 hmem' hmem (by simpa using hc)
        have hpair : k' = k ∧ cid' = cid := by simpa using hpq
        exact hne hpair.1
      simp only [Option.some_bind, LinearStorage.getUnchecked]
      rw [ListFacts.getD_set_ne _ _ _ (Ne.symm hidxne)]
  | none =>
    have hsingle : lookup [(k, (s.storage.insert v).2)] k' = none := by
      simp [lookup, List.find?, (Ne.symm hne : k ≠ k')]
    simp only [StableMap.insert, hlk]
    simp only [StableMap.get, AssocFacts.lookup_append, hsingle]
    cases hlk' : lookup s.key_to_pos k' with
    | none => rfl
    | some cid' =>
      have hmem' : (k', cid') ∈ s.key_to_pos := AssocFacts.mem_of_lookup_eq_some hlk'
      obtain ⟨hpc', hpi', hpf'⟩ := h3 (k', cid') hmem'
      dsimp only at hpc' hpi' hpf'
      simp only [Option.or, Option.some_bind, LinearStorage.getUnchecked]
      cases hfr : s.storage.free_list with
      | nil =>
        rw [LS_insert_nil v hfr]
        rw [ListFacts.getD_append_left _ _ _ hpc', ListFacts.getD_append_left _ _ _ hpi']
      | cons f rest =>
        obtain ⟨hf1, hf2⟩ := h7 f (by rw [hfr]; exact List.mem_cons_self f rest)
        have hidxf : s.storage.cells.getD cid' 0 ≠ f := by
          intro he
          rw [he, hf2] at hpf'
          exact Option.noConfusion hpf'
        rw [LS_insert_cons v hfr]
        rw [ListFacts.getD_append_left _ _ _ hpc',
          ListFacts.getD_set_ne _ _ _ (Ne.symm hidxf)]

theorem containsKey_insert (s : StableMap K V) (k k' : K) (v : V) :
    (s.insert k v).containsKey k' ↔ k' = k ∨ s.containsKey k' := by
  cases hlk : lookup s.key_to_pos k with
  | some cid =>
    simp only [StableMap.insert, hlk, containsKey]
    constructor
    · exact Or.inr
    · rintro (rfl | h)
      · rw [hlk]; rfl
      · exact h
  | none =>
    simp only [StableMap.insert, hlk, containsKey, AssocFacts.lookup_append]
    by_cases hk : k' = k
    · subst hk
      have hsing : lookup [(k', (s.storage.insert v).2)] k' =
          some (s.storage.insert v).2 := by
        simp [lookup, List.find?]
      rw [hsing]
      cases lookup s.key_to_pos k' <;> simp
    · have hsing : lookup [(k, (s.storage.insert v).2)] k' = none := by
        rw [AssocFacts.lookup_cons, if_neg (fun h => hk h.symm)]
        rfl
      rw [hsing]
      cases lookup s.key_to_pos k' <;> simp [hk]

theorem mapLen_insert_fresh (s : StableMap K V) (k : K) (v : V)
    (h : lookup s.key_to_pos k = none) :
    (s.insert k v).mapLen = s.mapLen + 1 := by
  simp [StableMap.insert, h, mapLen]

theorem free_insert_nil (s : StableMap K V) (k : K) (v : V)
    (h : s.storage.free_list = []) : (s.insert k v).storage.free_list = [] := by
  cases hlk : lookup s.key_to_pos k with
  | some cid =>
    simp only [StableMap.insert, hlk]
    unfold LinearStorage.replaceValue
    cases hs : s.storage.slots.getD (s.storage.cells.getD cid 0) none with
    | none => exact h
    | some e =>
      obtain ⟨c, w⟩ := e
      exact h
  | none =>
    simp only [StableMap.insert, hlk, LS_insert_nil v h]

theorem cloneFold (s : StableMap K V) :
    ∀ (l : List (K × Nat)) (m : StableMap K V),
      (l.map Prod.fst).Nodup →
      (∀ p ∈ l, ∃ w, s.storage.getUnchecked p.2 = some w ∧ s.get p.1 = some w) →
      MapInv m → m.storage.free_list = [] →
      (∀ p ∈ l, lookup m.key_to_pos p.1 = none) →
      MapInv (l.foldl (cloneStep s) m) ∧
      (l.foldl (cloneStep s) m).storage.free_list = [] ∧
      (l.foldl (cloneStep s) m).mapLen = m.mapLen + l.length ∧
      (∀ p ∈ l, (l.foldl (cloneStep s) m).get p.1 = s.get p.1) ∧
      (∀ k, k ∉ l.map Prod.fst → (l.foldl (cloneStep s) m).get k = m.get k) := by
  intro l
  induction l with
  | nil =>
    intro m hn hv hm hf hfresh
    exact ⟨hm, hf, by simp, by simp, fun k _ => rfl⟩
  | cons p l ih =>
    intro m hn hv hm hf hfresh
    simp only [List.foldl_cons]
    obtain ⟨w, hw1, hw2⟩ := hv p (List.mem_cons_self p l)
    have hstep : cloneStep s m p = m.insert p.1 w := by
      unfold cloneStep
      rw [hw1]
      exact (insert_eq_insertUnique w (hfresh p (List.mem_cons_self p l))).symm
    rw [hstep]
    simp only [List.map_cons, List.nodup_cons] at hn
    have hmv : MapInv (m.insert p.1 w) := MapInv_insert m p.1 w hm
    have hfv : (m.insert p.1 w).storage.free_list = [] := free_insert_nil m p.1 w hf
    have hfreshv : ∀ q ∈ l, lookup (m.insert p.1 w).key_to_pos q.1 = none := by
      intro q hq
      have hq1 : q.1 ≠ p.1 := by
        intro he
        exact hn.1 (he ▸ List.mem_map.mpr ⟨q, hq, rfl⟩)
      have hnc : ¬ (m.insert p.1 w).containsKey q.1 := by
        rw [containsKey_insert]
        rintro (he | hc)
        · exact hq1 he
        · unfold containsKey at hc
          rw [hfresh q (List.mem_cons_of_mem _ hq)] at hc
          simp at hc
      unfold containsKey at hnc
      exact Option.not_isSome_iff_eq_none.mp (by simpa using hnc)
    have hvl : ∀ q ∈ l, ∃ w', s.storage.getUnchecked q.2 = some w' ∧
        s.get q.1 = some w' := fun q hq => hv q (List.mem_cons_of_mem _ hq)
    obtain ⟨r1, r2, r3, r4, r5⟩ := ih (m.insert p.1 w) hn.2 hvl hmv hfv hfreshv
    refine ⟨r1, r2, ?_, ?_, ?_⟩
    · rw [r3, mapLen_insert_fresh m p.1 w (hfresh p (List.mem_cons_self p l))]
      simp only [List.length_cons]
      omega
    · intro q hq
      rcases List.mem_cons.mp hq with he | hq'
      · rw [he]
        rw [r5 p.1 hn.1, get_insert_self m p.1 w hm, hw2]
      · exact r4 q hq'
    · intro k hk
      simp only [List.map_cons, List.mem_cons] at hk
      push_neg at hk
      rw [r5 k hk.2]
      exact get_insert_ne m p.1 k w hm (by simpa using hk.1)

theorem cloneMap_spec (s : StableMap K V) (h : MapInv s) :
    MapInv s.cloneMap ∧ s.cloneMap.storage.free_list = [] ∧
    s.cloneMap.mapLen = s.mapLen ∧ (∀ k, s.cloneMap.get k = s.get k) := by
  obtain ⟨h1, h2, h3, h4, h5, h6, h7, h8, h9⟩ := h
  have hv : ∀ p ∈ s.key_to_pos, ∃ w, s.storage.getUnchecked p.2 = some w ∧
      s.get p.1 = some w := by
    intro p hp
    obtain ⟨hpc, hpi, hpf⟩ := h3 p hp
    obtain ⟨w, hw⟩ := OptFacts.map_fst_eq_some hpf
    refine ⟨w, ?_, ?_⟩
    · unfold LinearStorage.getUnchecked
      rw [hw]
      rfl
    · unfold StableMap.get
      rw [AssocFacts.lookup_of_mem_nodup h1 (by rw [Prod.mk.eta]; exact hp)]
      simp only [Option.some_bind]
      unfold LinearStorage.getUnchecked
      rw [hw]
      rfl
  obtain ⟨r1, r2, r3, r4, r5⟩ := cloneFold s s.key_to_pos emptyMap h1 hv
    MapInv_empty rfl (fun p _ => rfl)
  refine ⟨r1, r2, by simpa [mapLen, emptyMap] using r3, ?_⟩
  intro k
  show (List.foldl (cloneStep s) emptyMap s.key_to_pos).get k = s.get k
  by_cases hk : ∃ p ∈ s.key_to_pos, p.1 = k
  · obtain ⟨p, hp, hpk⟩ := hk
    subst hpk
    exact r4 p hp
  · push_neg at hk
    have hk' : k ∉ s.key_to_pos.map Prod.fst := by
      intro hm'
      obtain ⟨p, hp, hpk⟩ := List.mem_map.mp hm'
      exact hk p hp hpk
    rw [r5 k hk']
    have hlk : lookup s.key_to_pos k = none :=
      (AssocFacts.lookup_eq_none_iff _ _).mpr fun p hp he => hk p hp he
    have hempty : (emptyMap : StableMap K V).get k = none := rfl
    have hs : s.get k = none := by
      unfold StableMap.get
      rw [hlk]
      rfl
    rw [hempty, hs]

theorem MapInv_cloneMap (s : StableMap K V) (h : MapInv s) : MapInv s.cloneMap :=
  (cloneMap_spec s h).1

theorem MapInv_applyOp (s : StableMap K V) (op : Op K V) (h : MapInv s) :
    MapInv (applyOp s op) := by
  cases op with
  | ins k v => exact MapInv_insert s k v h
  | rem k => exact MapInv_remove s k h
  | comp => exact MapInv_mapCompact s h
  | fcomp => exact MapInv_mapForceCompact s h
  | clr => exact MapInv_clear s
  | clone => exact MapInv_cloneMap s h
  | drain n => exact MapInv_drainDrop s n

theorem MapInv_applyOps (ops : List (Op K V)) : MapInv (applyOps emptyMap ops) := by
  suffices h : ∀ (s : StableMap K V), MapInv s → MapInv (applyOps s ops) from
    h emptyMap MapInv_empty
  induction ops with
  | nil => exact fun s hs => hs
  | cons op ops ih =>
    intro s hs
    exact ih _ (MapInv_applyOp s op hs)

/-- Under the invariant, the free-list length is exactly the number of unused
slots, `index_len - len`. -/
theorem free_count (s : StableMap K V) (h : MapInv s) :
    s.storage.free_list.length + s.mapLen = s.indexLen := by
  obtain ⟨h1, h2, h3, h4, h5, h6, h7, h8, h9⟩ := h
  have hhnodup : ((List.range s.storage.slots.length).filter
      (fun i => (s.storage.slots.getD i none).isNone)).Nodup :=
    (List.nodup_range _).filter _
  have hmem : ∀ a, a ∈ s.storage.free_list ↔ a ∈ (List.range s.storage.slots.length).filter
      (fun i => (s.storage.slots.getD i none).isNone) := by
    intro a
    constructor
    · intro ha
      obtain ⟨ha1, ha2⟩ := h7 a ha
      rw [List.getD_eq_getElem _ _ ha1] at ha2
      simp [List.mem_filter, List.mem_range, ha1, ha2]
    · intro ha
      simp only [List.mem_filter, List.mem_range] at ha
      obtain ⟨ha1, ha2⟩ := ha
      exact h8 a ha1 (Option.isNone_iff_eq_none.mp ha2)
  have hperm : s.storage.free_list.Perm ((List.range s.storage.slots.length).filter
      (fun i => (s.storage.slots.getD i none).isNone)) :=
    (List.perm_ext_iff_of_nodup h6 hhnodup).mpr hmem
  have hlen1 := hperm.length_eq
  have hlen2 : ((List.range s.storage.slots.length).filter
      (fun i => (s.storage.slots.getD i none).isNone)).length =
      (List.range s.storage.slots.length).countP
        (fun i => (s.storage.slots.getD i none).isNone) :=
    (List.countP_eq_length_filter _ _).symm
  have hlen3 := OptFacts.countP_range_getD s.storage.slots
  have hlen4 := OptFacts.length_filterMap_id_add s.storage.slots
  unfold StableMap.mapLen StableMap.indexLen LinearStorage.len
  omega

/-- Under the invariant, the conditional compaction is the identity exactly
when the number of unused slots is at most `max(index_len / 2, 8)`, and a
forced compaction otherwise. -/
theorem compact_spec (s : StableMap K V) (h : MapInv s) :
    (s.indexLen - s.mapLen ≤ max (s.indexLen / 2) 8 → s.mapCompact = s) ∧
    (s.indexLen - s.mapLen > max (s.indexLen / 2) 8 →
      s.mapCompact = s.mapForceCompact) := by
  have hfc := free_count s h
  have hle : s.mapLen ≤ s.indexLen := by omega
  have hfree : s.storage.free_list.length = s.indexLen - s.mapLen := by omega
  constructor
  · intro hc
    unfold StableMap.mapCompact LinearStorage.compact
    rw [if_pos (by rw [hfree]; exact hc)]
  · intro hc
    unfold StableMap.mapCompact LinearStorage.compact
    rw [if_neg (by rw [hfree]; exact not_le.mpr hc)]
    rfl

/-- Under key-uniqueness, `contains_key` is membership in the key list. -/
theorem containsKey_iff_mem_keys (s : StableMap K V)
    (h1 : (s.key_to_pos.map Prod.fst).Nodup) (k : K) :
    s.containsKey k ↔ k ∈ s.key_to_pos.map Prod.fst := by
  constructor
  · intro hc
    unfold containsKey at hc
    cases hlk : lookup s.key_to_pos k with
    | none => rw [hlk] at hc; simp at hc
    | some cid =>
      exact List.mem_map.mpr ⟨(k, cid), AssocFacts.mem_of_lookup_eq_some hlk, rfl⟩
  · intro hm
    obtain ⟨p, hp, hpk⟩ := List.mem_map.mp hm
    have : lookup s.key_to_pos p.1 = some p.2 :=
      AssocFacts.lookup_of_mem_nodup h1 (by rw [Prod.mk.eta]; exact hp)
    unfold containsKey
    rw [← hpk, this]
    rfl

/-- Under the invariant, every present key's index agrees between
`get_index`/`get_by_index` and `get`. -/
theorem key_index_agree (s : StableMap K V) (h : MapInv s) (k : K)
    (hk : s.containsKey k) :
    ∃ i, s.getIndex k = some i ∧ s.getByIndex i = s.get k ∧ (s.get k).isSome := by
  obtain ⟨h1, h2, h3, h4, h5, h6, h7, h8, h9⟩ := h
  unfold containsKey at hk
  cases hlk : lookup s.key_to_pos k with
  | none => rw [hlk] at hk; simp at hk
  | some cid =>
    have hmem : (k, cid) ∈ s.key_to_pos := AssocFacts.mem_of_lookup_eq_some hlk
    obtain ⟨hcl, hil, hft⟩ := h3 (k, cid) hmem
    dsimp only at hcl hil hft
    obtain ⟨w, hw⟩ := OptFacts.map_fst_eq_some hft
    refine ⟨s.storage.cells.getD cid 0, ?_, ?_, ?_⟩
    · unfold getIndex
      rw [hlk]
      rfl
    · unfold getByIndex LinearStorage.get StableMap.get LinearStorage.getUnchecked
      rw [hlk, Option.some_bind, hw]
    · unfold StableMap.get LinearStorage.getUnchecked
      rw [hlk, Option.some_bind, hw]
      rfl

theorem replaceValue_cells (st : LinearStorage V) (cid : Nat) (v : V) :
    (st.replaceValue cid v).cells = st.cells := by
  unfold LinearStorage.replaceValue
  cases hg : st.slots.getD (st.cells.getD cid 0) none with
  | none => rfl
  | some e =>
    obtain ⟨c, w⟩ := e
    rfl

theorem getIndex_insert_other (s : StableMap K V) (h : MapInv s) {k k' : K} (v : V)
    (hne : k' ≠ k) : (s.insert k' v).getIndex k = s.getIndex k := by
  obtain ⟨h1, h2, h3, h4, h5, h6, h7, h8, h9⟩ := h
  cases hlk' : lookup s.key_to_pos k' with
  | some cid' =>
    simp only [StableMap.insert, hlk', getIndex]
    rw [replaceValue_cells]
  | none =>
    simp only [StableMap.insert, hlk', getIndex]
    have hsing : lookup [(k', (s.storage.insert v).2)] k = none := by
      rw [AssocFacts.lookup_cons, if_neg hne]
      rfl
    rw [AssocFacts.lookup_append, hsing, Option.or_none]
    cases hlk : lookup s.key_to_pos k with
    | none => rfl
    | some cid =>
      have hmem : (k, cid) ∈ s.key_to_pos := AssocFacts.mem_of_lookup_eq_some hlk
      have hcl : cid < s.storage.cells.length := (h3 (k, cid) hmem).1
      cases hfr : s.storage.free_list with
      | nil =>
        rw [LS_insert_nil v hfr]
        simp only [Option.map_some']
        rw [ListFacts.getD_append_left _ _ _ hcl]
      | cons f rest =>
        rw [LS_insert_cons v hfr]
        simp only [Option.map_some']
        rw [ListFacts.getD_append_left _ _ _ hcl]

theorem getIndex_remove_other (s : StableMap K V) (h : MapInv s) {k k' : K}
    (hne : k' ≠ k) : (s.remove k').getIndex k = s.getIndex k := by
  obtain ⟨h1, h2, h3, h4, h5, h6, h7, h8, h9⟩ := h
  cases hlk' : lookup s.key_to_pos k' with
  | none => simp only [StableMap.remove, hlk']
  | some cid' =>
    have hmem' : (k', cid') ∈ s.key_to_pos := AssocFacts.mem_of_lookup_eq_some hlk'
    obtain ⟨hcl', hil', hft'⟩ := h3 (k', cid') hmem'
    dsimp only at hcl' hil' hft'
    obtain ⟨w, hw⟩ := OptFacts.map_fst_eq_some hft'
    simp only [StableMap.remove, hlk', take_eq hw, getIndex]
    rw [AssocFacts.lookup_eraseKey_ne _ hne]

/-- An operation that neither touches the key `k` nor compacts or clears:
an insert or remove of a different key. -/
def OpAvoids (k : K) : Op K V → Prop
  | .ins k' _ => k' ≠ k
  | .rem k' => k' ≠ k
  | _ => False

instance (k : K) (op : Op K V) : Decidable (OpAvoids k op) :=
  match op with
  | .ins k' _ => inferInstanceAs (Decidable (k' ≠ k))
  | .rem k' => inferInstanceAs (Decidable (k' ≠ k))
  | .comp => inferInstanceAs (Decidable False)
  | .fcomp => inferInstanceAs (Decidable False)
  | .clr => inferInstanceAs (Decidable False)
  | .clone => inferInstanceAs (Decidable False)
  | .drain _ => inferInstanceAs (Decidable False)

theorem getIndex_stable_aux (k : K) (ops : List (Op K V)) :
    ∀ (s : StableMap K V), MapInv s → (∀ op ∈ ops, OpAvoids k op) →
      (applyOps s ops).getIndex k = s.getIndex k := by
  induction ops with
  | nil => intro s _ _; rfl
  | cons op ops ih =>
    intro s hs hops
    have hstep : (applyOp s op).getIndex k = s.getIndex k := by
      cases op with
      | ins k' v => exact getIndex_insert_other s hs v (hops _ (List.mem_cons_self _ _))
      | rem k' => exact getIndex_remove_other s hs (hops _ (List.mem_cons_self _ _))
      | comp => exact absurd (hops _ (List.mem_cons_self _ _)) (by simp [OpAvoids])
      | fcomp => exact absurd (hops _ (List.mem_cons_self _ _)) (by simp [OpAvoids])
      | clr => exact absurd (hops _ (List.mem_cons_self _ _)) (by simp [OpAvoids])
      | clone => exact absurd (hops _ (List.mem_cons_self _ _)) (by simp [OpAvoids])
      | drain n => exact absurd (hops _ (List.mem_cons_self _ _)) (by simp [OpAvoids])
    calc (applyOps s (op :: ops)).getIndex k
        = (applyOps (applyOp s op) ops).getIndex k := rfl
      _ = (applyOp s op).getIndex k :=
          ih _ (MapInv_applyOp s op hs) (fun o ho => hops o (List.mem_cons_of_mem _ ho))
      _ = s.getIndex k := hstep

theorem orderedInsert_all_lt {idx : Nat} {l : List Nat} (h : ∀ f ∈ l, idx < f) :
    l.orderedInsert (· ≤ ·) idx = idx :: l := by
  cases l with
  | nil => rfl
  | cons f fs =>
    unfold List.orderedInsert
    rw [if_pos (le_of_lt (h f (List.mem_cons_self f fs)))]

/-- Scenario A of the spec: insert (1,11) and (2,22), then remove key 1. -/
def scenarioA : StableMap Nat Nat := ((emptyMap.insert 1 11).insert 2 22).remove 1

/-- Scenario B of the spec after the first phase: insert keys 0..9 with
indices 0..9, then remove keys 0..7. -/
def scenarioB : StableMap Nat Nat :=
  (List.range 8).foldl (fun m i => m.remove i)
    ((List.range 10).foldl (fun m i => m.insert i (100 + i)) emptyMap)

/-- A state with 18 slots of which 9 are free: inserting keys 0..17 and
removing keys 0..8. -/
def scenarioC4 : StableMap Nat Nat :=
  (List.range 9).foldl (fun m i => m.remove i)
    ((List.range 18).foldl (fun m i => m.insert i i) emptyMap)

end StableMap

open StableMap

/-- C1: Index stability — for an invariant-satisfying map state containing
key `k`, running any sequence of insert and remove operations on other keys
leaves `get_index k` unchanged; only compaction, clear, or removing `k`
itself (all excluded by `OpAvoids`) may change it. -/
theorem C1_index_stability (s : StableMap K V) (h : MapInv s) (k : K)
    (_hk : s.containsKey k) (ops : List (Op K V))
    (hops : ∀ op ∈ ops, OpAvoids k op) :
    (applyOps s ops).getIndex k = s.getIndex k :=
  getIndex_stable_aux k ops s h hops

/-- Witness for C1: with keys 1 and 2 present, inserting key 3 and removing
key 2 leaves key 1's index unchanged. -/
theorem C1_index_stability_witness :
    (applyOps ((emptyMap.insert 1 11).insert 2 22)
        [Op.ins 3 33, Op.rem 2]).getIndex 1 =
      ((emptyMap.insert (1 : Nat) (11 : Nat)).insert 2 22).getIndex 1 :=
  C1_index_stability ((emptyMap.insert 1 11).insert 2 22) (by decide) 1 (by decide)
    [Op.ins 3 33, Op.rem 2] (by decide)

/-- C2: Post-compaction density — after `force_compact`, `index_len`
equals `len` (the key count, which is unchanged), every present key's index
is below `len`, and every index below `len` is the index of some present
key: the assigned indices are exactly `0..len()` with no gaps. -/
theorem C2_post_compaction_density (s : StableMap K V) (h : MapInv s) :
    s.mapForceCompact.indexLen = s.mapForceCompact.mapLen ∧
    s.mapForceCompact.mapLen = s.mapLen ∧
    (∀ k, s.mapForceCompact.containsKey k →
      ∃ i, s.mapForceCompact.getIndex k = some i ∧ i < s.mapForceCompact.mapLen) ∧
    (∀ j < s.mapForceCompact.mapLen,
      ∃ k, s.mapForceCompact.containsKey k ∧ s.mapForceCompact.getIndex k = some j) := by
  have h' := MapInv_mapForceCompact s h
  have hfr : s.mapForceCompact.storage.free_list = [] := forceCompact_free_nil _
  obtain ⟨h1, h2, h3, h4, h5, h6, h7, h8, h9⟩ := h'
  have hnoholes : ∀ x ∈ s.mapForceCompact.storage.slots, x ≠ none := by
    intro x hx hxn
    obtain ⟨i, hi, hgd⟩ := CompactFacts.exists_getD_of_mem hx
    have hmem := h8 i hi (hxn ▸ hgd)
    rw [hfr] at hmem
    simp at hmem
  have hIdxLen : s.mapForceCompact.indexLen = s.mapForceCompact.mapLen := by
    have hfm := OptFacts.length_filterMap_id_of_no_none hnoholes
    unfold StableMap.indexLen LinearStorage.len StableMap.mapLen
    omega
  refine ⟨hIdxLen, rfl, ?_, ?_⟩
  · intro k hk
    unfold StableMap.containsKey at hk
    cases hlk : lookup s.mapForceCompact.key_to_pos k with
    | none => rw [hlk] at hk; simp at hk
    | some cid =>
      have hmem := AssocFacts.mem_of_lookup_eq_some hlk
      obtain ⟨hcl, hil, hft⟩ := h3 (k, cid) hmem
      dsimp only at hcl hil hft
      refine ⟨s.mapForceCompact.storage.cells.getD cid 0, ?_, ?_⟩
      · unfold StableMap.getIndex
        rw [hlk]
        rfl
      · rw [← hIdxLen]
        exact hil
  · intro j hj
    have hj' : j < s.mapForceCompact.storage.slots.length := by
      have he : s.mapForceCompact.indexLen = s.mapForceCompact.storage.slots.length := rfl
      omega
    cases hg : s.mapForceCompact.storage.slots.getD j none with
    | none =>
      exfalso
      have hmem := OptFacts.mem_of_getD_lt (d := (none : Option (Nat × V))) hj'
      rw [hg] at hmem
      exact hnoholes none hmem rfl
    | some e =>
      obtain ⟨he1, he2, he3⟩ := h4 j hj' e hg
      obtain ⟨q, hq, hqe⟩ := List.mem_map.mp he3
      refine ⟨q.1, ?_, ?_⟩
      · rw [containsKey_iff_mem_keys _ h1]
        exact List.mem_map.mpr ⟨q, hq, rfl⟩
      · unfold StableMap.getIndex
        rw [AssocFacts.lookup_of_mem_nodup h1 (by rw [Prod.mk.eta]; exact hq)]
        simp only [Option.map_some']
        rw [hqe, he2]

/-- Witness for C2 at scenario B's pre-compaction state. -/
theorem C2_post_compaction_density_witness :
    scenarioB.mapForceCompact.indexLen = scenarioB.mapForceCompact.mapLen ∧
    scenarioB.mapForceCompact.mapLen = scenarioB.mapLen ∧
    (∀ k, scenarioB.mapForceCompact.containsKey k →
      ∃ i, scenarioB.mapForceCompact.getIndex k = some i ∧
        i < scenarioB.mapForceCompact.mapLen) ∧
    (∀ j < scenarioB.mapForceCompact.mapLen,
      ∃ k, scenarioB.mapForceCompact.containsKey k ∧
        scenarioB.mapForceCompact.getIndex k = some j) :=
  C2_post_compaction_density scenarioB (by decide)

/-- C3: Threshold (index_len formulation) — `compact()` leaves the map
unchanged whenever the free-slot count `index_len - len` is at most
`max(index_len / 2, 8)` and otherwise performs a full compaction; in
scenario B, after inserting keys 0..9 and removing 0..7 `compact()` is a
no-op with `get_index 9 = some 9`, and after also removing key 8 it
compacts and `get_index 9 = some 0`. -/
theorem C3_threshold_index_len (s : StableMap K V) (h : MapInv s) :
    ((s.indexLen - s.mapLen ≤ max (s.indexLen / 2) 8 → s.mapCompact = s) ∧
     (s.indexLen - s.mapLen > max (s.indexLen / 2) 8 →
        s.mapCompact = s.mapForceCompact)) ∧
    (scenarioB.mapCompact = scenarioB ∧ scenarioB.getIndex 9 = some 9 ∧
     (scenarioB.remove 8).mapCompact = (scenarioB.remove 8).mapForceCompact ∧
     (scenarioB.remove 8).mapCompact ≠ scenarioB.remove 8 ∧
     (scenarioB.remove 8).mapCompact.getIndex 9 = some 0) :=
  ⟨compact_spec s h, by decide⟩

/-- Witness for C3 at scenario B's pre-compaction state. -/
theorem C3_threshold_index_len_witness :
    ((scenarioB.indexLen - scenarioB.mapLen ≤ max (scenarioB.indexLen / 2) 8 →
        scenarioB.mapCompact = scenarioB) ∧
     (scenarioB.indexLen - scenarioB.mapLen > max (scenarioB.indexLen / 2) 8 →
        scenarioB.mapCompact = scenarioB.mapForceCompact)) ∧
    (scenarioB.mapCompact = scenarioB ∧ scenarioB.getIndex 9 = some 9 ∧
     (scenarioB.remove 8).mapCompact = (scenarioB.remove 8).mapForceCompact ∧
     (scenarioB.remove 8).mapCompact ≠ scenarioB.remove 8 ∧
     (scenarioB.remove 8).mapCompact.getIndex 9 = some 0) :=
  C3_threshold_index_len scenarioB (by decide)

/-- C4 as stated fails on the code: in a state with 18 slots, 9 occupied and
9 free, the free count 9 exceeds `max(occupied_count / 2, 8) = 8`, so the
claim requires `compact()` to call `force_compact`; but the code compares
against `max(index_len / 2, 8) = 9` and does nothing. -/
theorem C4_counterexample :
    scenarioC4.indexLen - scenarioC4.mapLen > max (scenarioC4.mapLen / 2) 8 ∧
    scenarioC4.mapCompact = scenarioC4 ∧
    scenarioC4.mapCompact ≠ scenarioC4.mapForceCompact := by decide

/-- C4 amended: `compact()` is a no-op unless the number of free slots is
strictly greater than `max(index_len / 2, 8)` — the slot-array length, not
the occupied count — in which case it calls `force_compact`. -/
theorem C4_threshold_amended (s : StableMap K V) (h : MapInv s) :
    (s.indexLen - s.mapLen ≤ max (s.indexLen / 2) 8 → s.mapCompact = s) ∧
    (s.indexLen - s.mapLen > max (s.indexLen / 2) 8 →
      s.mapCompact = s.mapForceCompact) :=
  compact_spec s h

/-- Witness for the amended C4 at the 18-slot state. -/
theorem C4_threshold_amended_witness :
    (scenarioC4.indexLen - scenarioC4.mapLen ≤ max (scenarioC4.indexLen / 2) 8 →
      scenarioC4.mapCompact = scenarioC4) ∧
    (scenarioC4.indexLen - scenarioC4.mapLen > max (scenarioC4.indexLen / 2) 8 →
      scenarioC4.mapCompact = scenarioC4.mapForceCompact) :=
  C4_threshold_amended scenarioC4 (by decide)

/-- C5: after every sequence of public operations starting from the empty
map, `len()` is the number of keys currently mapped — the length of a
duplicate-free list enumerating exactly the contained keys — and
`0 ≤ len() ≤ index_len()`. -/
theorem C5_len_invariant (ops : List (Op K V)) :
    ∃ l : List K, l.Nodup ∧
      (∀ k, (applyOps emptyMap ops).containsKey k ↔ k ∈ l) ∧
      (applyOps emptyMap ops).mapLen = l.length ∧
      0 ≤ (applyOps emptyMap ops).mapLen ∧
      (applyOps emptyMap ops).mapLen ≤ (applyOps emptyMap ops).indexLen := by
  obtain ⟨h1, h2, h3, h4, h5, h6, h7, h8, h9⟩ := MapInv_applyOps (K := K) (V := V) ops
  refine ⟨(applyOps emptyMap ops).key_to_pos.map Prod.fst, h1,
    fun k => containsKey_iff_mem_keys _ h1 k, by simp [StableMap.mapLen],
    Nat.zero_le _, ?_⟩
  have hfm : ((applyOps emptyMap ops).storage.slots.filterMap id).length ≤
      (applyOps emptyMap ops).storage.slots.length := List.length_filterMap_le _ _
  unfold StableMap.mapLen StableMap.indexLen LinearStorage.len
  omega

/-- C6: after every sequence of public operations, every present key `k` has
`get_index k = some i` for an index `i` at which `get_by_index` returns
exactly `get k`, a present value. -/
theorem C6_key_index_agreement (ops : List (Op K V)) (k : K)
    (hk : (applyOps emptyMap ops).containsKey k) :
    ∃ i, (applyOps emptyMap ops).getIndex k = some i ∧
      (applyOps emptyMap ops).getByIndex i = (applyOps emptyMap ops).get k ∧
      ((applyOps emptyMap ops).get k).isSome :=
  key_index_agree _ (MapInv_applyOps ops) k hk

/-- Witness for C6 after inserting keys 1 and 2 and removing key 1. -/
theorem C6_key_index_agreement_witness :
    ∃ i, (applyOps emptyMap [Op.ins 1 11, Op.ins 2 22, Op.rem 1]).getIndex 2 = some i ∧
      (applyOps emptyMap [Op.ins 1 11, Op.ins 2 22, Op.rem 1]).getByIndex i =
        (applyOps emptyMap [Op.ins 1 11, Op.ins 2 22, Op.rem 1]).get 2 ∧
      ((applyOps emptyMap [Op.ins (1 : Nat) (11 : Nat), Op.ins 2 22, Op.rem 1]).get 2).isSome :=
  C6_key_index_agreement [Op.ins 1 11, Op.ins 2 22, Op.rem 1] 2 (by decide)

/-- C7: compaction is idempotent — for every map state, a second consecutive
`compact()` is a no-op, so calling it twice equals calling it once. -/
theorem C7_compact_idempotent (s : StableMap K V) :
    s.mapCompact.mapCompact = s.mapCompact := by
  by_cases hc : s.storage.free_list.length ≤ max (s.storage.slots.length / 2) 8
  · have h1 : s.mapCompact = s := by
      unfold StableMap.mapCompact LinearStorage.compact
      rw [if_pos hc]
    rw [h1]
    exact h1
  · have h1 : s.mapCompact = s.mapForceCompact := by
      unfold StableMap.mapCompact LinearStorage.compact
      rw [if_neg hc]
      rfl
    rw [h1]
    have h2 : s.mapForceCompact.storage.free_list = [] := forceCompact_free_nil _
    unfold StableMap.mapCompact LinearStorage.compact
    rw [if_pos (by rw [h2]; simp)]

/-- C8 as stated fails on the code: in the state built by inserting keys 1
and 2 (indices 0 and 1) and removing key 1, the smallest currently-occupied
index is 1 (index 0 is empty), held by key 2; removing key 2 and then
inserting key 3 assigns index 0 — the minimum of the free queue — not
index 1. -/
theorem C8_counterexample :
    (∀ i < 1, scenarioA.getByIndex i = none) ∧
    scenarioA.getIndex 2 = some 1 ∧
    ((scenarioA.remove 2).insert 3 33).getIndex 3 ≠ some 1 ∧
    ((scenarioA.remove 2).insert 3 33).getIndex 3 = some 0 := by decide

/-- C8 amended: if a key `k` with index `idx` is removed and the free list
holds no index below `idx` (for instance when the map has no free slots, in
particular when `k` holds the smallest occupied index of a hole-free map),
then the next key inserted — a key not present in the map — receives the
index `idx` (the free list is a min-priority queue popped on insert). -/
theorem C8_reuse_amended (s : StableMap K V) (k k' : K) (v : V) (idx : Nat)
    (h : MapInv s) (hidx : s.getIndex k = some idx)
    (hsmall : ∀ f ∈ s.storage.free_list, idx < f)
    (hfresh : ¬ s.containsKey k') :
    ((s.remove k).insert k' v).getIndex k' = some idx := by
  obtain ⟨h1, h2, h3, h4, h5, h6, h7, h8, h9⟩ := h
  cases hlk : lookup s.key_to_pos k with
  | none =>
    unfold StableMap.getIndex at hidx
    rw [hlk] at hidx
    simp at hidx
  | some cid =>
    have hmem := AssocFacts.mem_of_lookup_eq_some hlk
    obtain ⟨hcl, hil, hft⟩ := h3 (k, cid) hmem
    dsimp only at hcl hil hft
    obtain ⟨w, hw⟩ := OptFacts.map_fst_eq_some hft
    have hidxeq : s.storage.cells.getD cid 0 = idx := by
      unfold StableMap.getIndex at hidx
      rw [hlk] at hidx
      simpa using hidx
    have hlk' : lookup s.key_to_pos k' = none := by
      unfold StableMap.containsKey at hfresh
      exact Option.not_isSome_iff_eq_none.mp (by simpa using hfresh)
    have hkne : k' ≠ k := by
      intro he
      rw [he, hlk] at hlk'
      exact Option.noConfusion hlk'
    have hlk'' : lookup (eraseKey s.key_to_pos k) k' = none := by
      rw [AssocFacts.lookup_eraseKey_ne _ (Ne.symm hkne)]
      exact hlk'
    have hfree' : s.storage.free_list.orderedInsert (· ≤ ·)
        (s.storage.cells.getD cid 0) =
        s.storage.cells.getD cid 0 :: s.storage.free_list := by
      apply orderedInsert_all_lt
      intro f hf
      rw [hidxeq]
      exact hsmall f hf
    simp only [StableMap.remove, hlk, take_eq hw]
    rw [hfree']
    simp only [StableMap.insert, hlk'', LinearStorage.insert]
    unfold StableMap.getIndex
    rw [AssocFacts.lookup_append, hlk'']
    have hsing : lookup [(k', s.storage.cells.length)] k' =
        some s.storage.cells.length := by
      rw [AssocFacts.lookup_cons, if_pos rfl]
    rw [hsing]
    simp only [Option.none_or, Option.map_some']
    rw [ListFacts.getD_append_self, hidxeq]

/-- Witness for the amended C8: a hole-free two-key map; removing the key at
index 0 and inserting a fresh key reuses index 0. -/
theorem C8_reuse_amended_witness :
    ((((emptyMap.insert 1 11).insert 2 22).remove 1).insert 3 33).getIndex 3 =
      some 0 :=
  C8_reuse_amended ((emptyMap.insert (1 : Nat) (11 : Nat)).insert 2 22) 1 3 33 0
    (by decide) (by decide) (by decide) (by decide)

/-- C9: `clone` produces a map with exactly the same key/value pairs in
which `index_len` equals `len` (the original's `len`); in scenario A the
clone has `len = 1`, `index_len = 1` and `get 2 = some 22`. -/
theorem C9_clone_compactness (s : StableMap K V) (h : MapInv s) :
    (∀ k, s.cloneMap.get k = s.get k) ∧
    s.cloneMap.indexLen = s.cloneMap.mapLen ∧
    s.cloneMap.mapLen = s.mapLen ∧
    (scenarioA.cloneMap.mapLen = 1 ∧ scenarioA.cloneMap.indexLen = 1 ∧
      scenarioA.cloneMap.get 2 = some 22) := by
  obtain ⟨r1, r2, r3, r4⟩ := cloneMap_spec s h
  refine ⟨r4, ?_, r3, by decide⟩
  have hfc := free_count _ r1
  rw [r2] at hfc
  simpa using hfc.symm

/-- Witness for C9 at scenario A's original map. -/
theorem C9_clone_compactness_witness :
    (∀ k, scenarioA.cloneMap.get k = scenarioA.get k) ∧
    scenarioA.cloneMap.indexLen = scenarioA.cloneMap.mapLen ∧
    scenarioA.cloneMap.mapLen = scenarioA.mapLen ∧
    (scenarioA.cloneMap.mapLen = 1 ∧ scenarioA.cloneMap.indexLen = 1 ∧
      scenarioA.cloneMap.get 2 = some 22) :=
  C9_clone_compactness scenarioA (by decide)

/-- C10: dropping a `Drain` iterator after consuming any number of elements
leaves the map not only empty (`len = 0`) but with `index_len = 0` — the
slot array is truncated — so `get_by_index i` is `none` for every `i`. -/
theorem C10_drain_drop (s : StableMap K V) (n : Nat) :
    s.drainDrop n = emptyMap ∧ (s.drainDrop n).mapLen = 0 ∧
    (s.drainDrop n).indexLen = 0 ∧ ∀ i, (s.drainDrop n).getByIndex i = none := by
  refine ⟨rfl, rfl, rfl, fun i => ?_⟩
  unfold StableMap.drainDrop StableMap.getByIndex LinearStorage.get LinearStorage.clearLS
  simp [List.getD]
